import Mathlib

/-!
Verification of the Clue deduction engine (`Knowledge/ImprovedKnowledgeBase.py`,
with the set-based variant `Knowledge/KnowledgeBase.py` where a claim cites it).

The engine keeps a boolean possibility matrix indexed by (card, holder), a list
of "holder has at least one of these cards" constraints, and runs a synchronous
propagation fixpoint after every mutation.  The Python code is size-agnostic:
it reads the vocabulary (`character_names`, `weapon_names`, `room_names`) and
the player ids off the game object it is given, so the embedding is parametric
in a `Config` carrying exactly those lists.
-/

namespace Clue

/-- A holder is a player (identified by its stable id) or the envelope
sentinel (`self.ENVELOPE = "ENVELOPE"` in the source). -/
inductive Holder where
  | player (id : Nat)
  | envelope
deriving DecidableEq, Repr

/-- The data the knowledge base reads off the `game` object at construction:
the three category card lists and the player ids (in seating order). -/
structure Config where
  characterNames : List String
  weaponNames : List String
  roomNames : List String
  playerIds : List Nat
deriving Repr

/-- `self.holders = [p.player_id for p in game.players]; self.holders.append(self.ENVELOPE)`. -/
def Config.holders (cfg : Config) : List Holder :=
  cfg.playerIds.map Holder.player ++ [Holder.envelope]

/-- `self.cards`: all cards in category-dictionary insertion order
(suspect, weapon, room). -/
def Config.cards (cfg : Config) : List String :=
  cfg.characterNames ++ cfg.weaponNames ++ cfg.roomNames

def Config.numCards (cfg : Config) : Nat := cfg.cards.length

def Config.numHolders (cfg : Config) : Nat := cfg.holders.length

/-- Index of the last occurrence of `x` in `l`, `none` if absent.  This is the
lookup of a Python dict built with `{v: i for i, v in enumerate(l)}`: a later
duplicate key overwrites an earlier one. -/
def lastIdxOf {α : Type} [DecidableEq α] : List α → α → Option Nat
  | [], _ => none
  | a :: t, x =>
    match lastIdxOf t x with
    | some j => some (j + 1)
    | none => if a = x then some 0 else none

/-- `self.card_to_idx` lookup. -/
def cardToIdx (cfg : Config) (c : String) : Option Nat :=
  lastIdxOf cfg.cards c

/-- `self.holder_to_idx` lookup. -/
def holderToIdx (cfg : Config) (h : Holder) : Option Nat :=
  lastIdxOf cfg.holders h

/-- `self.holder_to_idx[self.ENVELOPE]`; always defined because the envelope
is appended to the holder list at construction. -/
def envIdx (cfg : Config) : Nat :=
  (holderToIdx cfg Holder.envelope).getD 0

/-- The mutable state of one `ImprovedKnowledgeBase`: the possibility matrix
(total boolean function on index pairs; only indices below `numCards` and
`numHolders` are ever consulted), the `atleast_one` constraint store, and the
`changed` / `solution_known` / `_solution` fields. -/
structure KB where
  poss : Nat → Nat → Bool
  atleastOne : List (Holder × List Nat)
  changed : Bool
  solutionKnown : Bool
  solution : Option (String × String × String)

/-- The freshly constructed knowledge base: `np.ones(...)`, no constraints,
nothing known. -/
def initKB : KB :=
  { poss := fun _ _ => true
    atleastOne := []
    changed := false
    solutionKnown := false
    solution := none }

/-- `np.sum(self.poss[card_idx])` — the number of `true` entries in a card's
row (also the length of `np.where(self.poss[card_idx])[0]`). -/
def rowCount (cfg : Config) (poss : Nat → Nat → Bool) (ci : Nat) : Nat :=
  (List.range cfg.numHolders).countP (fun j => poss ci j)

/-- `_is_assigned`. -/
def isAssigned (cfg : Config) (poss : Nat → Nat → Bool) (ci : Nat) : Bool :=
  decide (rowCount cfg poss ci = 1)

/-- `_is_assigned_to`. -/
def isAssignedTo (cfg : Config) (poss : Nat → Nat → Bool) (ci hi : Nat) : Bool :=
  isAssigned cfg poss ci && poss ci hi

/-- `self.poss[card_idx, :] = False; self.poss[card_idx, holder_idx] = True`. -/
def assignRow (poss : Nat → Nat → Bool) (ci hi : Nat) : Nat → Nat → Bool :=
  fun i j => if i = ci then decide (j = hi) else poss i j

/-- `self.poss[card_idx, holder_idx] = False`. -/
def elimEntry (poss : Nat → Nat → Bool) (ci hi : Nat) : Nat → Nat → Bool :=
  fun i j => if i = ci ∧ j = hi then false else poss i j

/-- `_apply_single_possibility_rule`: for every card, if the row has exactly
one `true` entry and the card is not `_is_assigned`, set `changed` (the matrix
itself is left as is; see the source comment "already marked in matrix"). -/
def singlePossibilityRule (cfg : Config) (s : KB) : KB :=
  (List.range cfg.numCards).foldl
    (fun t ci =>
      if rowCount cfg t.poss ci = 1 ∧ isAssigned cfg t.poss ci = false then
        { t with changed := true }
      else t)
    s

/-- One iteration of the `for holder, card_indices in self.atleast_one` loop in
`_process_atleast_one_constraints`.  The accumulator carries the evolving state
and the `remaining_constraints` list.  An unregistered holder would raise
`KeyError` in Python (`self.holder_to_idx[holder]`); every call site below uses
registered holders, and that branch keeps the constraint untouched. -/
def constraintStep (cfg : Config) (acc : KB × List (Holder × List Nat))
    (con : Holder × List Nat) : KB × List (Holder × List Nat) :=
  let s := acc.1
  let kept := acc.2
  match holderToIdx cfg con.1 with
  | none => (s, kept ++ [con])
  | some hi =>
    let possible := con.2.filter (fun c => s.poss c hi)
    if possible.length = 0 then
      (s, kept)
    else if possible.length = 1 then
      ({ s with poss := assignRow s.poss possible.headI hi, changed := true }, kept)
    else if con.2.any (fun ci => isAssignedTo cfg s.poss ci hi) then
      (s, kept)
    else
      (s, kept ++ [con])

/-- `_process_atleast_one_constraints`. -/
def processAtleastOne (cfg : Config) (s : KB) : KB :=
  let r := s.atleastOne.foldl (constraintStep cfg) (s, [])
  { r.1 with atleastOne := r.2 }

/-- One category of `_apply_envelope_exclusivity`. -/
def envelopeStep (cfg : Config) (s : KB) (cardList : List String) : KB :=
  let cis := cardList.filterMap (cardToIdx cfg)
  let possEnv := cis.filter (fun c => s.poss c (envIdx cfg))
  if possEnv.length = 1 then
    if isAssigned cfg s.poss possEnv.headI = false then
      { s with poss := assignRow s.poss possEnv.headI (envIdx cfg), changed := true }
    else s
  else s

/-- `_apply_envelope_exclusivity`: the three categories in dictionary order. -/
def envelopeRule (cfg : Config) (s : KB) : KB :=
  envelopeStep cfg
    (envelopeStep cfg (envelopeStep cfg s cfg.characterNames) cfg.weaponNames)
    cfg.roomNames

/-- `card_to_idx[card]` resolved and tested with `_is_assigned_to(·, envelope)`;
used by `_check_solution` (a missing card would raise in Python and never
occurs: every category card was registered at construction). -/
def assignedToEnvB (cfg : Config) (poss : Nat → Nat → Bool) (c : String) : Bool :=
  match cardToIdx cfg c with
  | some ci => isAssignedTo cfg poss ci (envIdx cfg)
  | none => false

/-- `_check_solution`. -/
def checkSolution (cfg : Config) (s : KB) : KB :=
  let es := cfg.characterNames.filter (assignedToEnvB cfg s.poss)
  let ew := cfg.weaponNames.filter (assignedToEnvB cfg s.poss)
  let er := cfg.roomNames.filter (assignedToEnvB cfg s.poss)
  if es.length = 1 ∧ ew.length = 1 ∧ er.length = 1 then
    { s with solutionKnown := true, solution := some (es.headI, ew.headI, er.headI) }
  else s

/-- One body of the `while self.changed` loop in `_propagate`:
reset `changed`, then rules 1-3 and the solution check. -/
def propagateStep (cfg : Config) (s : KB) : KB :=
  checkSolution cfg
    (envelopeRule cfg
      (processAtleastOne cfg
        (singlePossibilityRule cfg { s with changed := false })))

/-- The `while self.changed` loop, run with explicit fuel. -/
def propagateAux (cfg : Config) : Nat → KB → KB
  | 0, s => s
  | fuel + 1, s => if s.changed then propagateAux cfg fuel (propagateStep cfg s) else s

/-- Enough fuel for `_propagate` to reach its fixpoint from `s` (proved below:
each iteration that continues removes a constraint or assigns a card). -/
def fuelFor (cfg : Config) (s : KB) : Nat :=
  s.atleastOne.length + cfg.numCards + 1

/-- `_propagate`. -/
def propagate (cfg : Config) (s : KB) : KB :=
  propagateAux cfg (fuelFor cfg s) s

/-- `set_holder`.  An unknown card silently returns (`return  # Invalid card`);
an unknown holder raises `KeyError` in Python — that branch is modelled as
returning the state unchanged and is exercised by no claim proved below. -/
def setHolder (cfg : Config) (s : KB) (card : String) (holder : Holder) : KB :=
  match cardToIdx cfg card with
  | none => s
  | some ci =>
    match holderToIdx cfg holder with
    | none => s
    | some hi =>
      propagate cfg { s with poss := assignRow s.poss ci hi, changed := true }

/-- `eliminate`.  Unknown card or holder silently returns; an entry that is
already `False` returns without propagating. -/
def eliminate (cfg : Config) (s : KB) (card : String) (holder : Holder) : KB :=
  match cardToIdx cfg card, holderToIdx cfg holder with
  | some ci, some hi =>
    if s.poss ci hi = false then s
    else propagate cfg { s with poss := elimEntry s.poss ci hi, changed := true }
  | _, _ => s

/-- `record_atleast_one`.  The card set is translated to indices, silently
dropping unknown names; an empty index set is a no-op.  (Python iterates a set
here; the engine's behaviour does not depend on the iteration order, and the
embedding fixes the order of the given list, with duplicates removed.) -/
def recordAtleastOne (cfg : Config) (s : KB) (holder : Holder) (cardSet : List String) : KB :=
  let cis := (cardSet.filterMap (cardToIdx cfg)).dedup
  if cis = [] then s
  else propagate cfg { s with atleastOne := s.atleastOne ++ [(holder, cis)], changed := true }

/-- `possible_holders`: `{self.holders[i] for i in range(self.num_holders) if
self.poss[card_idx, i]}`, as the index-ordered list of those holders; an
unknown card yields the empty set. -/
def possibleHolders (cfg : Config) (s : KB) (card : String) : List Holder :=
  match cardToIdx cfg card with
  | none => []
  | some ci =>
    ((List.range cfg.numHolders).filter (fun i => s.poss ci i)).filterMap
      (fun i => cfg.holders.get? i)

/-- `is_solution_known`. -/
def isSolutionKnown (s : KB) : Bool := s.solutionKnown

/-- `get_solution` / `solution_if_forced`. -/
def getSolution (s : KB) : Option (String × String × String) :=
  if s.solutionKnown then s.solution else none

/-- The `while current_idx != responder_idx` walk of `update_from_suggestion`,
with fuel (Python's loop terminates because both indices are below the player
count; the fuel is the player count).  Yields the ids of the players strictly
between suggester and responder in circular seating order. -/
def passedAux (cfg : Config) (respIdx : Nat) : Nat → Nat → List Nat
  | 0, _ => []
  | fuel + 1, cur =>
    if cur = respIdx then []
    else
      match cfg.playerIds.get? cur with
      | some pid => pid :: passedAux cfg respIdx fuel ((cur + 1) % cfg.playerIds.length)
      | none => []

/-- The players the `update_from_suggestion` walk visits: start one past the
suggester (`player_ids.index`), stop at the responder. -/
def passedPlayers (cfg : Config) (sug resp : Nat) : List Nat :=
  let n := cfg.playerIds.length
  passedAux cfg (cfg.playerIds.indexOf resp) n ((cfg.playerIds.indexOf sug + 1) % n)

/-- Eliminate each suggested card for one passed player (in Python the three
cards are iterated from a set; the three eliminations commute, and the
embedding fixes suggestion-tuple order). -/
def elimThree (cfg : Config) (s : KB) (sg : String × String × String) (pid : Nat) : KB :=
  eliminate cfg
    (eliminate cfg (eliminate cfg s sg.1 (Holder.player pid)) sg.2.1 (Holder.player pid))
    sg.2.2 (Holder.player pid)

/-- `update_from_suggestion` of `ImprovedKnowledgeBase`.  `sg` is the
`(suspect, weapon, room)` tuple.  A shown card with no responder would pass
`None` to `holder_to_idx` and raise in Python; the game loop never produces
that shape and it is modelled as a no-op. -/
def updateFromSuggestion (cfg : Config) (s : KB) (suggester : Nat)
    (sg : String × String × String) (responder : Option Nat) (shown : Option String) : KB :=
  match shown with
  | some card =>
    match responder with
    | some rp => setHolder cfg s card (Holder.player rp)
    | none => s
  | none =>
    match responder with
    | some rp =>
      let s1 := recordAtleastOne cfg s (Holder.player rp) [sg.1, sg.2.1, sg.2.2]
      (passedPlayers cfg suggester rp).foldl (fun t pid => elimThree cfg t sg pid) s1
    | none =>
      setHolder cfg
        (setHolder cfg (setHolder cfg s sg.1 Holder.envelope) sg.2.1 Holder.envelope)
        sg.2.2 Holder.envelope

/-- Specification-side description of "every player strictly between the
suggester and the responder in circular turn order": the players at offsets
1, ..., d-1 past the suggester, where d is the circular distance from
suggester to responder.  Written from the spec's words, to be compared with
the loop the code runs. -/
def betweenSpec (cfg : Config) (sug resp : Nat) : List Nat :=
  let n := cfg.playerIds.length
  let si := cfg.playerIds.indexOf sug
  let ri := cfg.playerIds.indexOf resp
  let d := (ri + n - (si + 1)) % n
  (List.range d).filterMap (fun k => cfg.playerIds.get? ((si + 1 + k) % n))

/-- The body of `_propagate` with the (dead) single-possibility rule removed;
used to state that the rule contributes nothing. -/
def propagateStepNoSingle (cfg : Config) (s : KB) : KB :=
  checkSolution cfg (envelopeRule cfg (processAtleastOne cfg { s with changed := false }))

def propagateAuxNoSingle (cfg : Config) : Nat → KB → KB
  | 0, s => s
  | fuel + 1, s =>
    if s.changed then propagateAuxNoSingle cfg fuel (propagateStepNoSingle cfg s) else s

/-- A public mutator call, for stating properties of call sequences. -/
inductive Mutation where
  | assign (card : String) (holder : Holder)
  | elim (card : String) (holder : Holder)
  | recordAL (holder : Holder) (cards : List String)

def applyMut (cfg : Config) (s : KB) : Mutation → KB
  | .assign c h => setHolder cfg s c h
  | .elim c h => eliminate cfg s c h
  | .recordAL h cs => recordAtleastOne cfg s h cs

def runMuts (cfg : Config) (s : KB) (ms : List Mutation) : KB :=
  ms.foldl (applyMut cfg) s

/-- The caller contract the spec states for `assign`: a `set_holder` call names
a holder that is still possible for the card (assigning against a previously
established fact is a caller logic error).  `eliminate` and
`record_atleast_one` carry no contract. -/
def goodMut (cfg : Config) (s : KB) : Mutation → Bool
  | .assign c h =>
    match cardToIdx cfg c with
    | none => true
    | some ci =>
      match holderToIdx cfg h with
      | none => false
      | some hi => s.poss ci hi
  | .elim _ _ => true
  | .recordAL _ _ => true

def goodRun (cfg : Config) (s : KB) : List Mutation → Bool
  | [] => true
  | m :: ms => goodMut cfg s m && goodRun cfg (applyMut cfg s m) ms

/-- The possibility matrix of the set-based variant (`KnowledgeBase.py`): a
`defaultdict(lambda: set(self.holders))` from card name to possible-holder
set, entries created on first access. -/
structure PMatrix where
  entries : List (String × List Holder)
  dflt : List Holder

def pmFind : List (String × List Holder) → String → Option (List Holder)
  | [], _ => none
  | e :: t, c => if e.1 = c then some e.2 else pmFind t c

/-- The value `possibility_matrix[card]` denotes (present entry, or the
default for an absent one). -/
def pmLookupD (m : PMatrix) (c : String) : List Holder :=
  match pmFind m.entries c with
  | some v => v
  | none => m.dflt

/-- `KnowledgeBase.possible_holders`: `deepcopy(self.possibility_matrix[card])`.
A `defaultdict` access inserts the default entry for an absent key, so the
call returns the (copied, unaliased) holder set together with the dictionary
as it is afterwards. -/
def possibleHoldersSetKB (m : PMatrix) (c : String) : List Holder × PMatrix :=
  match pmFind m.entries c with
  | some v => (v, m)
  | none => (m.dflt, { m with entries := m.entries ++ [(c, m.dflt)] })

/-- `p` is pointwise below `q`: every `true` entry of `p` is a `true` entry of `q`. -/
def possLE (p q : Nat → Nat → Bool) : Prop :=
  ∀ i j, p i j = true → q i j = true

/-- The number of cards whose row still has at least two `true` entries; with
the constraint-store size this bounds the propagation loop. -/
def unassignedCount (cfg : Config) (poss : Nat → Nat → Bool) : Nat :=
  (List.range cfg.numCards).countP (fun ci => decide (2 ≤ rowCount cfg poss ci))

/-- Termination measure for `_propagate`: every loop iteration that sets
`changed` removes a constraint or assigns a card. -/
def kbMeasure (cfg : Config) (s : KB) : Nat :=
  s.atleastOne.length + unassignedCount cfg s.poss

/-- The condition under which `_process_atleast_one_constraints` keeps a
constraint untouched for the next cycle, as a function of the matrix. -/
def keepPred (cfg : Config) (poss : Nat → Nat → Bool) (con : Holder × List Nat) : Bool :=
  match holderToIdx cfg con.1 with
  | none => true
  | some hi =>
    decide (2 ≤ (con.2.filter (fun c => poss c hi)).length) &&
      ! con.2.any (fun ci => isAssignedTo cfg poss ci hi)

/-- The matrix family traversed by a no-response suggestion: the rows in `A`
are envelope singletons, every other row is still all `true`. -/
def famPoss (cfg : Config) (A : List Nat) : Nat → Nat → Bool :=
  fun i j => if i ∈ A then decide (j = envIdx cfg) else true

/-- State constructor used by concrete propagation traces: matrix and
constraint store given, nothing concluded yet. -/
def mkKB (p : Nat → Nat → Bool) (al : List (Holder × List Nat)) (ch : Bool) : KB :=
  { poss := p, atleastOne := al, changed := ch, solutionKnown := false, solution := none }

/-- A small instance: two cards per category, two players. -/
def cfgEx : Config := ⟨["A", "B"], ["C", "D"], ["E", "F"], [0, 1]⟩

/-- A degenerate but constructible instance whose weapon category is a single
card. -/
def cfgSing : Config := ⟨["A", "B"], ["C"], ["E", "F"], [0, 1]⟩

/-- A four-player instance for exercising the circular passed-player walk. -/
def cfgFour : Config := ⟨["A", "B"], ["C", "D"], ["E", "F"], [10, 11, 12, 13]⟩

/-! ### Basic lemmas about the index maps and counting -/

theorem lastIdxOf_get {α : Type} [DecidableEq α] :
    ∀ {l : List α} {x : α} {i : Nat}, lastIdxOf l x = some i → l.get? i = some x := by
  intro l
  induction l with
  | nil => intro x i h; simp [lastIdxOf] at h
  | cons a t ih =>
    intro x i h
    unfold lastIdxOf at h
    cases ht : lastIdxOf t x with
    | some j =>
      rw [ht] at h
      simp at h
      subst h
      simpa using ih ht
    | none =>
      rw [ht] at h
      by_cases hax : a = x
      · simp [hax] at h
        subst h
        simp [hax]
      · simp [hax] at h

theorem lastIdxOf_lt {α : Type} [DecidableEq α] {l : List α} {x : α} {i : Nat}
    (h : lastIdxOf l x = some i) : i < l.length := by
  have := lastIdxOf_get h
  exact (List.get?_eq_some.mp this).1

theorem lastIdxOf_isSome_of_mem {α : Type} [DecidableEq α] {l : List α} {x : α}
    (h : x ∈ l) : ∃ i, lastIdxOf l x = some i := by
  induction l with
  | nil => cases h
  | cons a t ih =>
    unfold lastIdxOf
    cases ht : lastIdxOf t x with
    | some j => exact ⟨j + 1, rfl⟩
    | none =>
      rcases List.mem_cons.mp h with h1 | h2
      · exact ⟨0, by simp [h1]⟩
      · rcases ih h2 with ⟨j, hj⟩
        rw [hj] at ht
        cases ht

theorem lastIdxOf_inj {α : Type} [DecidableEq α] {l : List α} {x y : α} {i : Nat}
    (hx : lastIdxOf l x = some i) (hy : lastIdxOf l y = some i) : x = y := by
  have h1 := lastIdxOf_get hx
  have h2 := lastIdxOf_get hy
  rw [h1] at h2
  exact Option.some.inj h2

theorem lastIdxOf_append_single {α : Type} [DecidableEq α] (l : List α) (x : α) :
    lastIdxOf (l ++ [x]) x = some l.length := by
  induction l with
  | nil => simp [lastIdxOf]
  | cons a t ih => simp [lastIdxOf, ih]

theorem lastIdxOf_append_single_ne {α : Type} [DecidableEq α] (l : List α) {x y : α}
    (h : x ≠ y) : lastIdxOf (l ++ [y]) x = lastIdxOf l x := by
  induction l with
  | nil =>
    have : ¬ (y = x) := fun hh => h hh.symm
    simp [lastIdxOf, this]
  | cons a t ih => simp [lastIdxOf, ih]

theorem numHolders_eq (cfg : Config) : cfg.numHolders = cfg.playerIds.length + 1 := by
  simp [Config.numHolders, Config.holders]

theorem holderToIdx_envelope (cfg : Config) :
    holderToIdx cfg Holder.envelope = some cfg.playerIds.length := by
  unfold holderToIdx Config.holders
  have := lastIdxOf_append_single (cfg.playerIds.map Holder.player) Holder.envelope
  simpa using this

theorem envIdx_eq (cfg : Config) : envIdx cfg = cfg.playerIds.length := by
  unfold envIdx
  rw [holderToIdx_envelope]
  rfl

theorem envIdx_lt (cfg : Config) : envIdx cfg < cfg.numHolders := by
  rw [envIdx_eq, numHolders_eq]
  omega

theorem holders_get_envIdx (cfg : Config) :
    cfg.holders.get? (envIdx cfg) = some Holder.envelope := by
  have h := lastIdxOf_get (holderToIdx_envelope cfg)
  rw [envIdx_eq]
  exact h

theorem holderToIdx_player_cases (cfg : Config) {p : Nat} (h : p ∈ cfg.playerIds) :
    ∃ pi, holderToIdx cfg (Holder.player p) = some pi ∧ pi < cfg.playerIds.length ∧
      cfg.holders.get? pi = some (Holder.player p) := by
  unfold holderToIdx Config.holders
  rw [lastIdxOf_append_single_ne _ (by intro hh; cases hh)]
  have hm : Holder.player p ∈ cfg.playerIds.map Holder.player := List.mem_map_of_mem _ h
  rcases lastIdxOf_isSome_of_mem hm with ⟨pi, hpi⟩
  refine ⟨pi, hpi, ?_, ?_⟩
  · have := lastIdxOf_lt hpi
    simpa using this
  · have hg := lastIdxOf_get hpi
    have hlt : pi < (cfg.playerIds.map Holder.player).length := lastIdxOf_lt hpi
    rw [List.get?_append hlt]
    exact hg

theorem holderToIdx_lt (cfg : Config) {h : Holder} {i : Nat}
    (hh : holderToIdx cfg h = some i) : i < cfg.numHolders :=
  lastIdxOf_lt hh

theorem cardToIdx_lt (cfg : Config) {c : String} {i : Nat}
    (hh : cardToIdx cfg c = some i) : i < cfg.numCards :=
  lastIdxOf_lt hh

theorem cardToIdx_get (cfg : Config) {c : String} {i : Nat}
    (hh : cardToIdx cfg c = some i) : cfg.cards.get? i = some c :=
  lastIdxOf_get hh

theorem cardToIdx_inj (cfg : Config) {c d : String} {i : Nat}
    (hc : cardToIdx cfg c = some i) (hd : cardToIdx cfg d = some i) : c = d :=
  lastIdxOf_inj hc hd

theorem cardToIdx_isSome_of_mem (cfg : Config) {c : String} (h : c ∈ cfg.cards) :
    ∃ i, cardToIdx cfg c = some i :=
  lastIdxOf_isSome_of_mem h

/-- Counting over a list is strictly smaller for a strictly smaller predicate
with an explicit witness. -/
theorem countP_lt_of {l : List Nat} {p q : Nat → Bool}
    (hpq : ∀ x ∈ l, q x = true → p x = true) {a : Nat} (ha : a ∈ l)
    (hp : p a = true) (hq : q a = false) : l.countP q < l.countP p := by
  induction l with
  | nil => cases ha
  | cons b t ih =>
    rw [List.countP_cons, List.countP_cons]
    rcases List.mem_cons.mp ha with rfl | hat
    · simp only [hp, hq]
      have : t.countP q ≤ t.countP p :=
        List.countP_mono_left (fun x hx => hpq x (List.mem_cons_of_mem _ hx))
      simp
      omega
    · have h1 : t.countP q < t.countP p :=
        ih (fun x hx => hpq x (List.mem_cons_of_mem _ hx)) hat
      have h2 : (if q b then 1 else 0) ≤ (if p b then 1 else 0) := by
        by_cases hb : q b = true
        · rw [hpq b (List.mem_cons_self _ _) hb, hb]
        · simp [Bool.eq_false_iff.mpr hb]
      omega

theorem countP_le_of {l : List Nat} {p q : Nat → Bool}
    (hpq : ∀ x ∈ l, q x = true → p x = true) : l.countP q ≤ l.countP p :=
  List.countP_mono_left hpq

theorem countP_range_decide_eq (n k : Nat) :
    (List.range n).countP (fun j => decide (j = k)) = if k < n then 1 else 0 := by
  induction n with
  | zero => simp
  | succ m ih =>
    rw [List.range_succ, List.countP_append, ih]
    by_cases h : k < m
    · have hne : ¬ (m = k) := by omega
      simp [List.countP_cons, hne, h, Nat.lt_succ_of_lt h]
    · by_cases h2 : k = m
      · subst h2
        simp [List.countP_cons, h]
      · have hne : ¬ (m = k) := fun hh => h2 hh.symm
        have h3 : ¬ (k < m + 1) := by omega
        simp [List.countP_cons, hne, h, h3]

/-! ### The single-possibility rule is inert (its guard is unsatisfiable) -/

theorem singlePossibilityRule_eq_self (cfg : Config) (s : KB) :
    singlePossibilityRule cfg s = s := by
  unfold singlePossibilityRule
  generalize List.range cfg.numCards = l
  induction l generalizing s with
  | nil => rfl
  | cons ci t ih =>
    rw [List.foldl_cons]
    have hbody :
        (if rowCount cfg s.poss ci = 1 ∧ isAssigned cfg s.poss ci = false then
          { s with changed := true } else s) = s := by
      rw [if_neg]
      rintro ⟨h1, h2⟩
      rw [isAssigned, h1] at h2
      simp at h2
    rw [hbody]
    exact ih s

/-! ### Pointwise monotonicity: every rule only removes `true` entries -/

theorem possLE_refl (p : Nat → Nat → Bool) : possLE p p := fun _ _ h => h

theorem possLE_trans {p q r : Nat → Nat → Bool} (h1 : possLE p q) (h2 : possLE q r) :
    possLE p r := fun i j h => h2 i j (h1 i j h)

theorem assignRow_le {poss : Nat → Nat → Bool} {ci hi : Nat} (h : poss ci hi = true) :
    possLE (assignRow poss ci hi) poss := by
  intro i j hij
  unfold assignRow at hij
  by_cases hic : i = ci
  · subst hic
    rw [if_pos rfl] at hij
    have : j = hi := of_decide_eq_true hij
    subst this
    exact h
  · rwa [if_neg hic] at hij

theorem elimEntry_le (poss : Nat → Nat → Bool) (ci hi : Nat) :
    possLE (elimEntry poss ci hi) poss := by
  intro i j hij
  unfold elimEntry at hij
  by_cases hc : i = ci ∧ j = hi
  · rw [if_pos hc] at hij; cases hij
  · rwa [if_neg hc] at hij

theorem length_eq_one_eq_headI {α : Type} [Inhabited α] {l : List α} (h : l.length = 1) :
    l = [l.headI] := by
  cases l with
  | nil => cases h
  | cons x t =>
    cases t with
    | nil => rfl
    | cons y u => simp at h

theorem constraintStep_poss_le (cfg : Config) (acc : KB × List (Holder × List Nat))
    (con : Holder × List Nat) : possLE (constraintStep cfg acc con).1.poss acc.1.poss := by
  unfold constraintStep
  cases hh : holderToIdx cfg con.1 with
  | none => exact possLE_refl _
  | some hi =>
    simp only
    set possible := con.2.filter (fun c => acc.1.poss c hi) with hposs
    by_cases h0 : possible.length = 0
    · rw [if_pos h0]; exact possLE_refl _
    · rw [if_neg h0]
      by_cases h1 : possible.length = 1
      · rw [if_pos h1]
        have hmem : possible.headI ∈ possible := by
          rw [length_eq_one_eq_headI h1]; exact List.mem_cons_self _ _
        have := List.mem_filter.mp (hposs ▸ hmem)
        exact assignRow_le this.2
      · rw [if_neg h1]
        by_cases h2 : con.2.any (fun ci => isAssignedTo cfg acc.1.poss ci hi) = true
        · rw [if_pos h2]; exact possLE_refl _
        · rw [if_neg h2]; exact possLE_refl _

theorem foldl_constraintStep_poss_le (cfg : Config) :
    ∀ (l : List (Holder × List Nat)) (acc : KB × List (Holder × List Nat)),
      possLE (l.foldl (constraintStep cfg) acc).1.poss acc.1.poss := by
  intro l
  induction l with
  | nil => intro acc; exact possLE_refl _
  | cons con t ih =>
    intro acc
    rw [List.foldl_cons]
    exact possLE_trans (ih _) (constraintStep_poss_le cfg acc con)

theorem processAtleastOne_poss_le (cfg : Config) (s : KB) :
    possLE (processAtleastOne cfg s).poss s.poss := by
  unfold processAtleastOne
  exact foldl_constraintStep_poss_le cfg _ _

theorem envelopeStep_poss_le (cfg : Config) (s : KB) (cl : List String) :
    possLE (envelopeStep cfg s cl).poss s.poss := by
  unfold envelopeStep
  set cis := cl.filterMap (cardToIdx cfg) with hcis
  set possEnv := cis.filter (fun c => s.poss c (envIdx cfg)) with henv
  by_cases h1 : possEnv.length = 1
  · rw [if_pos h1]
    by_cases h2 : isAssigned cfg s.poss possEnv.headI = false
    · rw [if_pos h2]
      have hmem : possEnv.headI ∈ possEnv := by
        rw [length_eq_one_eq_headI h1]; exact List.mem_cons_self _ _
      have := List.mem_filter.mp (henv ▸ hmem)
      exact assignRow_le this.2
    · rw [if_neg h2]; exact possLE_refl _
  · rw [if_neg h1]; exact possLE_refl _

theorem envelopeRule_poss_le (cfg : Config) (s : KB) :
    possLE (envelopeRule cfg s).poss s.poss := by
  unfold envelopeRule
  exact possLE_trans (envelopeStep_poss_le _ _ _)
    (possLE_trans (envelopeStep_poss_le _ _ _) (envelopeStep_poss_le _ _ _))

theorem checkSolution_poss (cfg : Config) (s : KB) : (checkSolution cfg s).poss = s.poss := by
  simp only [checkSolution]
  split
  · rfl
  · rfl

theorem checkSolution_atleastOne (cfg : Config) (s : KB) :
    (checkSolution cfg s).atleastOne = s.atleastOne := by
  simp only [checkSolution]
  split
  · rfl
  · rfl

theorem checkSolution_changed (cfg : Config) (s : KB) :
    (checkSolution cfg s).changed = s.changed := by
  simp only [checkSolution]
  split
  · rfl
  · rfl

theorem propagateStep_poss_le (cfg : Config) (s : KB) :
    possLE (propagateStep cfg s).poss s.poss := by
  unfold propagateStep
  rw [checkSolution_poss, singlePossibilityRule_eq_self]
  exact possLE_trans (envelopeRule_poss_le cfg _) (processAtleastOne_poss_le cfg _)

theorem propagateAux_poss_le (cfg : Config) :
    ∀ (fuel : Nat) (s : KB), possLE (propagateAux cfg fuel s).poss s.poss := by
  intro fuel
  induction fuel with
  | zero => intro s; exact possLE_refl _
  | succ n ih =>
    intro s
    unfold propagateAux
    by_cases h : s.changed = true
    · rw [if_pos h]
      exact possLE_trans (ih _) (propagateStep_poss_le cfg s)
    · rw [if_neg h]
      exact possLE_refl _

theorem propagate_poss_le (cfg : Config) (s : KB) :
    possLE (propagate cfg s).poss s.poss :=
  propagateAux_poss_le cfg _ s

theorem eliminate_poss_le (cfg : Config) (s : KB) (c : String) (h : Holder) :
    possLE (eliminate cfg s c h).poss s.poss := by
  unfold eliminate
  cases hc : cardToIdx cfg c with
  | none => exact possLE_refl _
  | some ci =>
    cases hh : holderToIdx cfg h with
    | none => exact possLE_refl _
    | some hi =>
      simp only
      by_cases h0 : s.poss ci hi = false
      · rw [if_pos h0]; exact possLE_refl _
      · rw [if_neg h0]
        exact possLE_trans (propagate_poss_le cfg _) (elimEntry_le _ _ _)

theorem recordAtleastOne_poss_le (cfg : Config) (s : KB) (h : Holder) (cs : List String) :
    possLE (recordAtleastOne cfg s h cs).poss s.poss := by
  simp only [recordAtleastOne]
  split
  · exact possLE_refl _
  · exact propagate_poss_le cfg _

theorem setHolder_poss_le (cfg : Config) (s : KB) {c : String} {h : Holder} {ci hi : Nat}
    (hc : cardToIdx cfg c = some ci) (hh : holderToIdx cfg h = some hi)
    (hpre : s.poss ci hi = true) : possLE (setHolder cfg s c h).poss s.poss := by
  unfold setHolder
  rw [hc, hh]
  exact possLE_trans (propagate_poss_le cfg _) (assignRow_le hpre)

/-! ### The termination measure decreases -/

theorem countP_ext {α : Type} {l : List α} {p q : α → Bool}
    (h : ∀ x ∈ l, p x = q x) : l.countP p = l.countP q := by
  induction l with
  | nil => rfl
  | cons a t ih =>
    rw [List.countP_cons, List.countP_cons, h a (List.mem_cons_self _ _),
      ih (fun x hx => h x (List.mem_cons_of_mem _ hx))]

theorem rowCount_mono (cfg : Config) {p q : Nat → Nat → Bool} (h : possLE p q) (ci : Nat) :
    rowCount cfg p ci ≤ rowCount cfg q ci :=
  List.countP_mono_left (fun j _ hj => h ci j hj)

theorem unassignedCount_mono (cfg : Config) {p q : Nat → Nat → Bool} (h : possLE p q) :
    unassignedCount cfg p ≤ unassignedCount cfg q := by
  apply List.countP_mono_left
  intro ci _ hci
  have h1 : 2 ≤ rowCount cfg p ci := of_decide_eq_true hci
  have h2 := rowCount_mono cfg h ci
  exact decide_eq_true (by omega)

theorem rowCount_assignRow_self (cfg : Config) (poss : Nat → Nat → Bool) {ci hi : Nat}
    (h : hi < cfg.numHolders) : rowCount cfg (assignRow poss ci hi) ci = 1 := by
  unfold rowCount
  have he : ∀ j ∈ List.range cfg.numHolders,
      (assignRow poss ci hi ci j) = decide (j = hi) := by
    intro j _
    unfold assignRow
    rw [if_pos rfl]
  rw [countP_ext he, countP_range_decide_eq, if_pos h]

theorem rowCount_assignRow_other (cfg : Config) (poss : Nat → Nat → Bool) {ci hi i : Nat}
    (h : i ≠ ci) : rowCount cfg (assignRow poss ci hi) i = rowCount cfg poss i := by
  unfold rowCount
  apply countP_ext
  intro j _
  unfold assignRow
  rw [if_neg h]

theorem rowCount_pos_of_entry (cfg : Config) (poss : Nat → Nat → Bool) {ci hi : Nat}
    (hlt : hi < cfg.numHolders) (h : poss ci hi = true) : 1 ≤ rowCount cfg poss ci := by
  unfold rowCount
  have : 0 < (List.range cfg.numHolders).countP (fun j => poss ci j) :=
    List.countP_pos.mpr ⟨hi, List.mem_range.mpr hlt, h⟩
  omega

/-- Assigning an unassigned row (at a real holder index) strictly decreases the
number of wide rows; the assigned card index must be a real card index. -/
theorem unassignedCount_assignRow_lt (cfg : Config) (poss : Nat → Nat → Bool) {ci hi : Nat}
    (hci : ci < cfg.numCards) (hhi : hi < cfg.numHolders)
    (hwide : 2 ≤ rowCount cfg poss ci) :
    unassignedCount cfg (assignRow poss ci hi) < unassignedCount cfg poss := by
  unfold unassignedCount
  apply countP_lt_of (a := ci)
  · intro x _ hx
    by_cases hxc : x = ci
    · subst hxc
      rw [rowCount_assignRow_self cfg poss hhi] at hx
      have : (2 : Nat) ≤ 1 := of_decide_eq_true hx
      omega
    · rw [rowCount_assignRow_other cfg poss hxc] at hx
      exact hx
  · exact List.mem_range.mpr hci
  · exact decide_eq_true hwide
  · rw [rowCount_assignRow_self cfg poss hhi]
    simp

/-! ### Field bookkeeping for the three rules -/

theorem envelopeStep_atleastOne (cfg : Config) (s : KB) (cl : List String) :
    (envelopeStep cfg s cl).atleastOne = s.atleastOne := by
  simp only [envelopeStep]
  split
  · split
    · rfl
    · rfl
  · rfl

theorem envelopeStep_solutionKnown (cfg : Config) (s : KB) (cl : List String) :
    (envelopeStep cfg s cl).solutionKnown = s.solutionKnown := by
  simp only [envelopeStep]
  split
  · split
    · rfl
    · rfl
  · rfl

theorem envelopeStep_solution (cfg : Config) (s : KB) (cl : List String) :
    (envelopeStep cfg s cl).solution = s.solution := by
  simp only [envelopeStep]
  split
  · split
    · rfl
    · rfl
  · rfl

/-- If one category step of the envelope rule reports no change, it did
nothing at all. -/
theorem envelopeStep_of_changed_false (cfg : Config) {s : KB} {cl : List String}
    (h : (envelopeStep cfg s cl).changed = false) :
    envelopeStep cfg s cl = s ∧ s.changed = false := by
  revert h
  simp only [envelopeStep]
  split
  · split
    · intro h; cases h
    · intro h; exact ⟨rfl, h⟩
  · intro h; exact ⟨rfl, h⟩

/-- A firing category step strictly shrinks the wide-row count. -/
theorem envelopeStep_strict (cfg : Config) {s : KB} {cl : List String}
    (hs : s.changed = false) (h : (envelopeStep cfg s cl).changed = true) :
    unassignedCount cfg (envelopeStep cfg s cl).poss < unassignedCount cfg s.poss := by
  revert h
  simp only [envelopeStep]
  set cis := cl.filterMap (cardToIdx cfg) with hcis
  set possEnv := cis.filter (fun c => s.poss c (envIdx cfg)) with henv
  split
  · rename_i hlen
    split
    · rename_i hna
      intro _
      simp only
      have hmem : possEnv.headI ∈ possEnv := by
        rw [length_eq_one_eq_headI hlen]; exact List.mem_cons_self _ _
      have hf := List.mem_filter.mp (henv ▸ hmem)
      have hmem2 : possEnv.headI ∈ cis := hf.1
      rcases List.mem_filterMap.mp (hcis ▸ hmem2) with ⟨c, _, hc⟩
      have hci : possEnv.headI < cfg.numCards := cardToIdx_lt cfg hc
      have henvp : s.poss possEnv.headI (envIdx cfg) = true := hf.2
      have h1 : 1 ≤ rowCount cfg s.poss possEnv.headI :=
        rowCount_pos_of_entry cfg s.poss (envIdx_lt cfg) henvp
      have hne : rowCount cfg s.poss possEnv.headI ≠ 1 := by
        intro hr
        unfold isAssigned at hna
        rw [hr] at hna
        simp at hna
      exact unassignedCount_assignRow_lt cfg s.poss hci (envIdx_lt cfg) (by omega)
    · intro h; rw [hs] at h; cases h
  · intro h; rw [hs] at h; cases h

/-- The four observable outcomes of processing one stored constraint: keep it,
drop it (empty subset or satisfied), or force its last possible card. -/
theorem constraintStep_cases (cfg : Config) (acc : KB × List (Holder × List Nat))
    (con : Holder × List Nat) :
    constraintStep cfg acc con = (acc.1, acc.2 ++ [con]) ∨
    constraintStep cfg acc con = (acc.1, acc.2) ∨
    ∃ hi ci, holderToIdx cfg con.1 = some hi ∧
      con.2.filter (fun c => acc.1.poss c hi) = [ci] ∧
      constraintStep cfg acc con =
        ({ acc.1 with poss := assignRow acc.1.poss ci hi, changed := true }, acc.2) := by
  unfold constraintStep
  cases hh : holderToIdx cfg con.1 with
  | none => left; rfl
  | some hi =>
    simp only
    set possible := con.2.filter (fun c => acc.1.poss c hi) with hp
    by_cases h0 : possible.length = 0
    · rw [if_pos h0]; right; left; rfl
    · rw [if_neg h0]
      by_cases h1 : possible.length = 1
      · rw [if_pos h1]
        right; right
        exact ⟨hi, possible.headI, rfl, length_eq_one_eq_headI h1, rfl⟩
      · rw [if_neg h1]
        by_cases h2 : con.2.any (fun ci => isAssignedTo cfg acc.1.poss ci hi) = true
        · rw [if_pos h2]; right; left; rfl
        · rw [if_neg h2]; left; rfl

theorem constraintStep_snd_le (cfg : Config) (acc : KB × List (Holder × List Nat))
    (con : Holder × List Nat) :
    (constraintStep cfg acc con).2.length ≤ acc.2.length + 1 := by
  rcases constraintStep_cases cfg acc con with h | h | ⟨hi, ci, _, _, h⟩ <;> rw [h] <;> simp

theorem constraintStep_changed_false (cfg : Config) {acc : KB × List (Holder × List Nat)}
    {con : Holder × List Nat} (h : (constraintStep cfg acc con).1.changed = false) :
    (constraintStep cfg acc con).1 = acc.1 ∧ acc.1.changed = false := by
  rcases constraintStep_cases cfg acc con with hc | hc | ⟨hi, ci, _, _, hc⟩
  · rw [hc] at h ⊢; exact ⟨rfl, h⟩
  · rw [hc] at h ⊢; exact ⟨rfl, h⟩
  · rw [hc] at h; cases h

theorem constraintStep_strict (cfg : Config) {acc : KB × List (Holder × List Nat)}
    {con : Holder × List Nat} (hb : acc.1.changed = false)
    (h : (constraintStep cfg acc con).1.changed = true) :
    (constraintStep cfg acc con).2.length ≤ acc.2.length := by
  rcases constraintStep_cases cfg acc con with hc | hc | ⟨hi, ci, _, _, hc⟩
  · rw [hc] at h; rw [hb] at h; cases h
  · rw [hc] at h; rw [hb] at h; cases h
  · rw [hc]

theorem constraintStep_changed_mono (cfg : Config) (acc : KB × List (Holder × List Nat))
    (con : Holder × List Nat) (h : acc.1.changed = true) :
    (constraintStep cfg acc con).1.changed = true := by
  rcases constraintStep_cases cfg acc con with hc | hc | ⟨hi, ci, _, _, hc⟩ <;> rw [hc] <;>
    exact h

theorem foldl_constraintStep_snd_le (cfg : Config) :
    ∀ (l : List (Holder × List Nat)) (acc : KB × List (Holder × List Nat)),
      (l.foldl (constraintStep cfg) acc).2.length ≤ acc.2.length + l.length := by
  intro l
  induction l with
  | nil => intro acc; simp
  | cons con t ih =>
    intro acc
    rw [List.foldl_cons]
    have h1 := ih (constraintStep cfg acc con)
    have h2 := constraintStep_snd_le cfg acc con
    simp only [List.length_cons]
    omega

theorem foldl_constraintStep_changed_false (cfg : Config) :
    ∀ {l : List (Holder × List Nat)} {acc : KB × List (Holder × List Nat)},
      (l.foldl (constraintStep cfg) acc).1.changed = false → acc.1.changed = false := by
  intro l
  induction l with
  | nil => intro acc h; exact h
  | cons con t ih =>
    intro acc h
    rw [List.foldl_cons] at h
    exact (constraintStep_changed_false cfg (ih h)).2

theorem foldl_constraintStep_strict (cfg : Config) :
    ∀ (l : List (Holder × List Nat)) (acc : KB × List (Holder × List Nat)),
      acc.1.changed = false → (l.foldl (constraintStep cfg) acc).1.changed = true →
      (l.foldl (constraintStep cfg) acc).2.length + 1 ≤ acc.2.length + l.length := by
  intro l
  induction l with
  | nil =>
    intro acc h0 h1
    rw [List.foldl_nil] at h1
    rw [h0] at h1
    cases h1
  | cons con t ih =>
    intro acc h0 h1
    rw [List.foldl_cons] at h1 ⊢
    by_cases hm : (constraintStep cfg acc con).1.changed = true
    · have hlen := constraintStep_strict cfg h0 hm
      have hrest := foldl_constraintStep_snd_le cfg t (constraintStep cfg acc con)
      simp only [List.length_cons]
      omega
    · have hm' : (constraintStep cfg acc con).1.changed = false := by
        cases hx : (constraintStep cfg acc con).1.changed
        · rfl
        · exact absurd hx hm
      have hrec := ih (constraintStep cfg acc con) hm' h1
      have hlen := constraintStep_snd_le cfg acc con
      simp only [List.length_cons]
      omega

theorem processAtleastOne_len_le (cfg : Config) (s : KB) :
    (processAtleastOne cfg s).atleastOne.length ≤ s.atleastOne.length := by
  unfold processAtleastOne
  have := foldl_constraintStep_snd_le cfg s.atleastOne (s, [])
  simpa using this

theorem processAtleastOne_changed_false (cfg : Config) {s : KB}
    (h : (processAtleastOne cfg s).changed = false) : s.changed = false := by
  unfold processAtleastOne at h
  exact foldl_constraintStep_changed_false cfg h

theorem processAtleastOne_strict (cfg : Config) {s : KB} (h0 : s.changed = false)
    (h1 : (processAtleastOne cfg s).changed = true) :
    (processAtleastOne cfg s).atleastOne.length + 1 ≤ s.atleastOne.length := by
  unfold processAtleastOne at h1 ⊢
  have := foldl_constraintStep_strict cfg s.atleastOne (s, []) h0 h1
  simpa using this

theorem envelopeRule_atleastOne (cfg : Config) (s : KB) :
    (envelopeRule cfg s).atleastOne = s.atleastOne := by
  unfold envelopeRule
  rw [envelopeStep_atleastOne, envelopeStep_atleastOne, envelopeStep_atleastOne]

theorem envelopeRule_strict (cfg : Config) {x : KB} (h0 : x.changed = false)
    (h1 : (envelopeRule cfg x).changed = true) :
    unassignedCount cfg (envelopeRule cfg x).poss < unassignedCount cfg x.poss := by
  unfold envelopeRule at h1 ⊢
  cases hc1 : (envelopeStep cfg x cfg.characterNames).changed with
  | false =>
    obtain ⟨e1, _⟩ := envelopeStep_of_changed_false cfg hc1
    rw [e1] at h1 ⊢
    cases hc2 : (envelopeStep cfg x cfg.weaponNames).changed with
    | false =>
      obtain ⟨e2, _⟩ := envelopeStep_of_changed_false cfg hc2
      rw [e2] at h1 ⊢
      exact envelopeStep_strict cfg h0 h1
    | true =>
      have hs2 := envelopeStep_strict cfg h0 hc2
      have hm3 : unassignedCount cfg
          (envelopeStep cfg (envelopeStep cfg x cfg.weaponNames) cfg.roomNames).poss ≤
          unassignedCount cfg (envelopeStep cfg x cfg.weaponNames).poss :=
        unassignedCount_mono cfg (envelopeStep_poss_le cfg _ _)
      omega
  | true =>
    have hs1 := envelopeStep_strict cfg h0 hc1
    have hm2 : unassignedCount cfg
        (envelopeStep cfg (envelopeStep cfg x cfg.characterNames) cfg.weaponNames).poss ≤
        unassignedCount cfg (envelopeStep cfg x cfg.characterNames).poss :=
      unassignedCount_mono cfg (envelopeStep_poss_le cfg _ _)
    have hm3 : unassignedCount cfg
        (envelopeStep cfg (envelopeStep cfg (envelopeStep cfg x cfg.characterNames)
          cfg.weaponNames) cfg.roomNames).poss ≤
        unassignedCount cfg
          (envelopeStep cfg (envelopeStep cfg x cfg.characterNames) cfg.weaponNames).poss :=
      unassignedCount_mono cfg (envelopeStep_poss_le cfg _ _)
    omega

theorem propagateStep_measure_le (cfg : Config) (s : KB) :
    kbMeasure cfg (propagateStep cfg s) ≤ kbMeasure cfg s := by
  unfold propagateStep kbMeasure
  rw [singlePossibilityRule_eq_self, checkSolution_atleastOne, checkSolution_poss,
    envelopeRule_atleastOne]
  have h1 : (processAtleastOne cfg { s with changed := false }).atleastOne.length ≤
      s.atleastOne.length := processAtleastOne_len_le cfg _
  have h2 : unassignedCount cfg
      (envelopeRule cfg (processAtleastOne cfg { s with changed := false })).poss ≤
      unassignedCount cfg s.poss := by
    refine le_trans (unassignedCount_mono cfg (envelopeRule_poss_le cfg _)) ?_
    exact unassignedCount_mono cfg (processAtleastOne_poss_le cfg _)
  omega

theorem propagateStep_measure_lt (cfg : Config) {s : KB}
    (h : (propagateStep cfg s).changed = true) :
    kbMeasure cfg (propagateStep cfg s) < kbMeasure cfg s := by
  unfold propagateStep at h ⊢
  unfold kbMeasure
  rw [singlePossibilityRule_eq_self] at h ⊢
  rw [checkSolution_atleastOne, checkSolution_poss, envelopeRule_atleastOne]
  rw [checkSolution_changed] at h
  cases hc : (processAtleastOne cfg { s with changed := false }).changed with
  | true =>
    have hstrict : (processAtleastOne cfg { s with changed := false }).atleastOne.length + 1 ≤
        ({ s with changed := false } : KB).atleastOne.length :=
      processAtleastOne_strict cfg rfl hc
    have h2 : unassignedCount cfg
        (envelopeRule cfg (processAtleastOne cfg { s with changed := false })).poss ≤
        unassignedCount cfg s.poss := by
      refine le_trans (unassignedCount_mono cfg (envelopeRule_poss_le cfg _)) ?_
      exact unassignedCount_mono cfg (processAtleastOne_poss_le cfg _)
    simp only at hstrict
    omega
  | false =>
    have hstrict := envelopeRule_strict cfg hc h
    have h1 : (processAtleastOne cfg { s with changed := false }).atleastOne.length ≤
        s.atleastOne.length := processAtleastOne_len_le cfg _
    have h2 : unassignedCount cfg (processAtleastOne cfg { s with changed := false }).poss ≤
        unassignedCount cfg s.poss :=
      unassignedCount_mono cfg (processAtleastOne_poss_le cfg _)
    omega

/-! ### The fixpoint loop terminates -/

theorem propagateAux_of_changed_false (cfg : Config) {s : KB} (h : s.changed = false) :
    ∀ n, propagateAux cfg n s = s := by
  intro n
  cases n with
  | zero => rfl
  | succ m =>
    unfold propagateAux
    rw [h]
    simp

theorem propagateAux_fix (cfg : Config) :
    ∀ (n : Nat) (s : KB), kbMeasure cfg s < n → (propagateAux cfg n s).changed = false := by
  intro n
  induction n with
  | zero => intro s h; omega
  | succ m ih =>
    intro s h
    unfold propagateAux
    cases hc : s.changed with
    | false => simpa using hc
    | true =>
      simp only [hc, if_true]
      cases hd : (propagateStep cfg s).changed with
      | false => rw [propagateAux_of_changed_false cfg hd]; exact hd
      | true =>
        apply ih
        have := propagateStep_measure_lt cfg hd
        omega

theorem propagateAux_is_step (cfg : Config) :
    ∀ (n : Nat) {s : KB}, s.changed = true → kbMeasure cfg s < n →
      ∃ t, propagateAux cfg n s = propagateStep cfg t := by
  intro n
  induction n with
  | zero => intro s _ h; omega
  | succ m ih =>
    intro s hc h
    unfold propagateAux
    simp only [hc, if_true]
    cases hd : (propagateStep cfg s).changed with
    | false => exact ⟨s, propagateAux_of_changed_false cfg hd m⟩
    | true =>
      apply ih hd
      have := propagateStep_measure_lt cfg hd
      omega

theorem propagateAux_fuel_ge (cfg : Config) :
    ∀ (n : Nat) (s : KB), kbMeasure cfg s < n → ∀ m, n ≤ m →
      propagateAux cfg m s = propagateAux cfg n s := by
  intro n
  induction n with
  | zero => intro s h; omega
  | succ k ih =>
    intro s h m hm
    cases hc : s.changed with
    | false => rw [propagateAux_of_changed_false cfg hc, propagateAux_of_changed_false cfg hc]
    | true =>
      cases m with
      | zero => omega
      | succ m' =>
        unfold propagateAux
        simp only [hc, if_true]
        cases hd : (propagateStep cfg s).changed with
        | false =>
          rw [propagateAux_of_changed_false cfg hd, propagateAux_of_changed_false cfg hd]
        | true =>
          have hlt := propagateStep_measure_lt cfg hd
          exact ih (propagateStep cfg s) (by omega) m' (by omega)

theorem kbMeasure_lt_fuelFor (cfg : Config) (s : KB) : kbMeasure cfg s < fuelFor cfg s := by
  unfold kbMeasure fuelFor unassignedCount
  have := List.countP_le_length
    (p := fun ci => decide (2 ≤ rowCount cfg s.poss ci)) (l := List.range cfg.numCards)
  rw [List.length_range] at this
  omega

/-! ### Claim theorems -/

/-- Claim C6: for every state of the knowledge base, the synchronous
propagation loop run by each public mutator (`set_holder`, `eliminate`,
`record_atleast_one`) terminates: with the fuel the embedding gives it, the
loop reaches a state in which `changed` is `false` (a full pass of the
discharge, category-exclusivity and solution-check rules altered nothing),
and handing the loop any amount of extra fuel produces the identical state,
so every mutator call returns. -/
theorem propagation_reaches_fixpoint (cfg : Config) (s : KB) :
    (propagate cfg s).changed = false ∧
    ∀ k, propagateAux cfg (fuelFor cfg s + k) s = propagate cfg s := by
  have hb := kbMeasure_lt_fuelFor cfg s
  constructor
  · exact propagateAux_fix cfg (fuelFor cfg s) s hb
  · intro k
    exact propagateAux_fuel_ge cfg (fuelFor cfg s) s hb (fuelFor cfg s + k) (by omega)

/-- Claim C10: the single-possibility pass of `_propagate` is dead code.  Its
guard demands a row with exactly one `true` entry for a card that is not
`_is_assigned`, but `_is_assigned` is defined as that same one-entry
condition, so the pass returns the state unchanged — and the fixpoint loop
without that pass computes exactly the same result as the loop with it. -/
theorem single_possibility_rule_inert (cfg : Config) :
    (∀ s : KB, singlePossibilityRule cfg s = s) ∧
    (∀ (fuel : Nat) (s : KB),
      propagateAuxNoSingle cfg fuel s = propagateAux cfg fuel s) := by
  refine ⟨singlePossibilityRule_eq_self cfg, ?_⟩
  intro fuel
  induction fuel with
  | zero => intro s; rfl
  | succ m ih =>
    intro s
    unfold propagateAuxNoSingle propagateAux
    cases hc : s.changed with
    | false => simp
    | true =>
      simp only [if_true]
      have hstep : propagateStepNoSingle cfg s = propagateStep cfg s := by
        unfold propagateStepNoSingle propagateStep
        rw [singlePossibilityRule_eq_self]
      rw [hstep]
      exact ih _

theorem applyMut_poss_le (cfg : Config) {s : KB} {m : Mutation}
    (h : goodMut cfg s m = true) : possLE (applyMut cfg s m).poss s.poss := by
  cases m with
  | assign c hd =>
    show possLE (setHolder cfg s c hd).poss s.poss
    cases hc : cardToIdx cfg c with
    | none =>
      have he : setHolder cfg s c hd = s := by unfold setHolder; rw [hc]
      rw [he]
      exact possLE_refl _
    | some ci =>
      cases hh : holderToIdx cfg hd with
      | none =>
        exfalso
        simp only [goodMut, hc, hh] at h
        cases h
      | some hi =>
        simp only [goodMut, hc, hh] at h
        exact setHolder_poss_le cfg s hc hh h
  | elim c hd => exact eliminate_poss_le cfg s c hd
  | recordAL hd cs => exact recordAtleastOne_poss_le cfg s hd cs

/-- Claim C1 (amended): over any sequence of public mutator calls in which
each `set_holder(card, holder)` call is issued only while `holder` is still a
possible holder of `card` (the spec's own caller contract for `assign`), the
set of `true` entries of the possibility matrix is non-increasing: every entry
that is `true` after the run was `true` before it.  In particular, once a
holder is excluded for a card it never reappears during such a run.  Without
that proviso the claim is false: `set_holder` rewrites the card's row
unconditionally and can resurrect an excluded holder
(see the counterexample). -/
theorem mutation_run_monotone (cfg : Config) (s : KB) (ms : List Mutation)
    (h : goodRun cfg s ms = true) :
    ∀ i j, (runMuts cfg s ms).poss i j = true → s.poss i j = true := by
  induction ms generalizing s with
  | nil => intro i j hij; exact hij
  | cons m t ih =>
    intro i j hij
    unfold goodRun at h
    have hsplit := Bool.and_eq_true_iff.mp h
    have h1 := applyMut_poss_le cfg hsplit.1
    have h2 := ih (applyMut cfg s m) hsplit.2
    exact h1 i j (h2 i j hij)

/-- Claim C1, counterexample to the unrestricted statement: on a fresh
two-player engine, `eliminate("A", player 0)` removes player 0 from card "A",
and a subsequent `set_holder("A", player 0)` puts player 0 back — the matrix
gained a `true` entry after a later mutator call. -/
theorem mutation_run_monotone_cex :
    Holder.player 0 ∉ possibleHolders cfgEx
      (runMuts cfgEx initKB [Mutation.elim "A" (Holder.player 0)]) "A" ∧
    Holder.player 0 ∈ possibleHolders cfgEx
      (runMuts cfgEx initKB
        [Mutation.elim "A" (Holder.player 0), Mutation.assign "A" (Holder.player 0)]) "A" := by
  decide

/-- Claim C1, witness: the amended theorem applied to a concrete two-call run
satisfying the `set_holder` contract. -/
theorem mutation_run_monotone_witness : initKB.poss 3 2 = true :=
  mutation_run_monotone cfgEx initKB
    [Mutation.elim "A" (Holder.player 0), Mutation.assign "B" (Holder.player 1)]
    (by decide) 3 2 (by decide)

/-- Claim C2 (evidence of the divergence): the engine silently continues past
a contradiction.  On a fresh two-player engine, eliminating card "A" for both
players and the envelope leaves the card with zero possible holders, and the
call returns an ordinary state carrying no contradiction indication (the state
type faithfully has no error field to set); likewise, a recorded at-least-one
constraint whose possible-card subset is already empty is silently dropped
from the store by the discharge pass (`pass` in the source). -/
theorem contradiction_silently_ignored :
    possibleHolders cfgEx
      (eliminate cfgEx
        (eliminate cfgEx (eliminate cfgEx initKB "A" (Holder.player 0)) "A" (Holder.player 1))
        "A" Holder.envelope) "A" = [] ∧
    (recordAtleastOne cfgEx
      (eliminate cfgEx (eliminate cfgEx initKB "A" (Holder.player 0)) "B" (Holder.player 0))
      (Holder.player 0) ["A", "B"]).atleastOne = [] := by
  decide

/-- Claim C7 (evidence of the divergence): a card or holder name outside the
fixed vocabulary is silently swallowed, not surfaced.  `eliminate` with an
unknown card, `set_holder` with an unknown card, `record_atleast_one` whose
cards are all unknown, and `eliminate` with an unknown holder each return the
state unchanged with no observable error, and `possible_holders` of an unknown
card silently yields the empty set. -/
theorem invalid_names_silently_swallowed :
    eliminate cfgEx initKB "Dagger" (Holder.player 0) = initKB ∧
    setHolder cfgEx initKB "Dagger" (Holder.player 0) = initKB ∧
    recordAtleastOne cfgEx initKB (Holder.player 0) ["Dagger"] = initKB ∧
    eliminate cfgEx initKB "A" (Holder.player 7) = initKB ∧
    possibleHolders cfgEx initKB "Dagger" = [] :=
  ⟨rfl, rfl, rfl, rfl, rfl⟩

/-! ### A completed propagation pass is stable -/

theorem checkSolution_def (cfg : Config) (s : KB) :
    checkSolution cfg s =
      (if (cfg.characterNames.filter (assignedToEnvB cfg s.poss)).length = 1 ∧
          (cfg.weaponNames.filter (assignedToEnvB cfg s.poss)).length = 1 ∧
          (cfg.roomNames.filter (assignedToEnvB cfg s.poss)).length = 1 then
        { s with
          solutionKnown := true
          solution := some ((cfg.characterNames.filter (assignedToEnvB cfg s.poss)).headI,
            (cfg.weaponNames.filter (assignedToEnvB cfg s.poss)).headI,
            (cfg.roomNames.filter (assignedToEnvB cfg s.poss)).headI) }
      else s) := rfl

theorem checkSolution_idem (cfg : Config) (s : KB) :
    checkSolution cfg (checkSolution cfg s) = checkSolution cfg s := by
  by_cases hcond : (cfg.characterNames.filter (assignedToEnvB cfg s.poss)).length = 1 ∧
      (cfg.weaponNames.filter (assignedToEnvB cfg s.poss)).length = 1 ∧
      (cfg.roomNames.filter (assignedToEnvB cfg s.poss)).length = 1
  · rw [checkSolution_def cfg (checkSolution cfg s)]
    rw [checkSolution_poss cfg s]
    rw [if_pos hcond]
    rw [checkSolution_def cfg s, if_pos hcond]
  · rw [checkSolution_def cfg (checkSolution cfg s)]
    rw [checkSolution_poss cfg s]
    rw [if_neg hcond]

theorem kb_eta_changed_false {r : KB} (h : r.changed = false) :
    ({ r with changed := false } : KB) = r := by
  cases r
  simp only at h
  rw [h]

theorem constraintStep_of_keep (cfg : Config) {acc : KB × List (Holder × List Nat)}
    {con : Holder × List Nat} (hk : keepPred cfg acc.1.poss con = true) :
    constraintStep cfg acc con = (acc.1, acc.2 ++ [con]) := by
  unfold constraintStep
  unfold keepPred at hk
  cases hh : holderToIdx cfg con.1 with
  | none => rfl
  | some hi =>
    rw [hh] at hk
    simp only [Bool.and_eq_true, Bool.not_eq_true'] at hk
    have hlen : 2 ≤ (con.2.filter (fun c => acc.1.poss c hi)).length :=
      of_decide_eq_true hk.1
    have hany := hk.2
    simp only
    rw [if_neg (by omega), if_neg (by omega), if_neg (by simp [hany])]

theorem foldl_constraintStep_all_keep (cfg : Config) :
    ∀ (l : List (Holder × List Nat)) (acc : KB × List (Holder × List Nat)),
      (∀ con ∈ l, keepPred cfg acc.1.poss con = true) →
      l.foldl (constraintStep cfg) acc = (acc.1, acc.2 ++ l) := by
  intro l
  induction l with
  | nil => intro acc _; simp
  | cons con t ih =>
    intro acc hall
    rw [List.foldl_cons, constraintStep_of_keep cfg (hall con (List.mem_cons_self _ _))]
    rw [ih (acc.1, acc.2 ++ [con]) (fun x hx => hall x (List.mem_cons_of_mem _ hx))]
    simp

theorem processAtleastOne_stable (cfg : Config) {s : KB}
    (hall : ∀ con ∈ s.atleastOne, keepPred cfg s.poss con = true) :
    processAtleastOne cfg s = s := by
  unfold processAtleastOne
  rw [foldl_constraintStep_all_keep cfg s.atleastOne (s, []) hall]
  cases s
  simp

theorem constraintStep_no_force (cfg : Config) {acc : KB × List (Holder × List Nat)}
    {con : Holder × List Nat} (h : (constraintStep cfg acc con).1.changed = false)
    (hb : acc.1.changed = false) :
    constraintStep cfg acc con =
      (acc.1, acc.2 ++ (if keepPred cfg acc.1.poss con = true then [con] else [])) := by
  unfold constraintStep at h ⊢
  unfold keepPred
  cases hh : holderToIdx cfg con.1 with
  | none => simp
  | some hi =>
    rw [hh] at h
    simp only at h ⊢
    set possible := con.2.filter (fun c => acc.1.poss c hi) with hp
    by_cases h0 : possible.length = 0
    · rw [if_pos h0] at h ⊢
      have : ¬ (2 ≤ possible.length) := by omega
      simp [this]
    · rw [if_neg h0] at h ⊢
      by_cases h1 : possible.length = 1
      · rw [if_pos h1] at h
        simp at h
      · rw [if_neg h1] at h ⊢
        by_cases h2 : con.2.any (fun ci => isAssignedTo cfg acc.1.poss ci hi) = true
        · rw [if_pos h2] at h ⊢
          simp [h2]
        · rw [if_neg h2] at h ⊢
          have hb2 : con.2.any (fun ci => isAssignedTo cfg acc.1.poss ci hi) = false := by
            cases hx : con.2.any (fun ci => isAssignedTo cfg acc.1.poss ci hi)
            · rfl
            · exact absurd hx h2
          have hlen : 2 ≤ possible.length := by omega
          simp [hb2, hlen]

theorem foldl_constraintStep_changed_mono2 (cfg : Config) :
    ∀ (l : List (Holder × List Nat)) (acc : KB × List (Holder × List Nat)),
      acc.1.changed = true → (l.foldl (constraintStep cfg) acc).1.changed = true := by
  intro l
  induction l with
  | nil => intro acc h; exact h
  | cons con t ih =>
    intro acc h
    rw [List.foldl_cons]
    exact ih _ (constraintStep_changed_mono cfg acc con h)

theorem foldl_constraintStep_no_force (cfg : Config) :
    ∀ (l : List (Holder × List Nat)) (acc : KB × List (Holder × List Nat)),
      acc.1.changed = false → (l.foldl (constraintStep cfg) acc).1.changed = false →
      l.foldl (constraintStep cfg) acc =
        (acc.1, acc.2 ++ l.filter (keepPred cfg acc.1.poss)) := by
  intro l
  induction l with
  | nil => intro acc _ _; simp
  | cons con t ih =>
    intro acc hb h
    rw [List.foldl_cons] at h ⊢
    have hstep : (constraintStep cfg acc con).1.changed = false := by
      cases hx : (constraintStep cfg acc con).1.changed
      · rfl
      · rw [foldl_constraintStep_changed_mono2 cfg t _ hx] at h
        cases h
    have heq := constraintStep_no_force cfg hstep hb
    rw [heq] at h ⊢
    have hrec := ih (acc.1, acc.2 ++
      (if keepPred cfg acc.1.poss con = true then [con] else [])) hb h
    rw [hrec]
    by_cases hk : keepPred cfg acc.1.poss con = true
    · simp [hk, List.filter_cons]
    · have hk2 : keepPred cfg acc.1.poss con = false := by
        cases hx : keepPred cfg acc.1.poss con
        · rfl
        · exact absurd hx hk
      simp [hk2, List.filter_cons]

theorem processAtleastOne_no_change (cfg : Config) {s : KB}
    (h : (processAtleastOne cfg s).changed = false) (hb : s.changed = false) :
    processAtleastOne cfg s = { s with atleastOne := s.atleastOne.filter (keepPred cfg s.poss) } := by
  unfold processAtleastOne at h ⊢
  rw [foldl_constraintStep_no_force cfg s.atleastOne (s, []) hb]
  · simp
  · exact h

theorem processAtleastOne_empty (cfg : Config) {s : KB} (h : s.atleastOne = []) :
    processAtleastOne cfg s = s := by
  unfold processAtleastOne
  rw [h]
  simp only [List.foldl_nil]
  cases s
  simp only at h
  rw [h]

/-- A category pass that did not fire on `u` does not fire on any state with
the same matrix and a clear `changed` flag. -/
theorem envelopeStep_no_fire_transfer (cfg : Config) {u v : KB} {cl : List String}
    (hp : v.poss = u.poss) (hu : (envelopeStep cfg u cl).changed = false)
    (hv : v.changed = false) : envelopeStep cfg v cl = v := by
  unfold envelopeStep at hu ⊢
  rw [hp]
  by_cases h1 : ((cl.filterMap (cardToIdx cfg)).filter
      (fun c => u.poss c (envIdx cfg))).length = 1
  · rw [if_pos h1] at hu ⊢
    by_cases h2 : isAssigned cfg u.poss
        ((cl.filterMap (cardToIdx cfg)).filter (fun c => u.poss c (envIdx cfg))).headI = false
    · rw [if_pos h2] at hu
      simp at hu
    · rw [if_neg h2]
  · rw [if_neg h1]

theorem envelopeRule_of_changed_false (cfg : Config) {x : KB}
    (h : (envelopeRule cfg x).changed = false) :
    envelopeRule cfg x = x ∧ x.changed = false ∧
    (envelopeStep cfg x cfg.characterNames).changed = false ∧
    (envelopeStep cfg x cfg.weaponNames).changed = false ∧
    (envelopeStep cfg x cfg.roomNames).changed = false := by
  unfold envelopeRule at h ⊢
  obtain ⟨e3, h3⟩ := envelopeStep_of_changed_false cfg h
  obtain ⟨e2, h2⟩ := envelopeStep_of_changed_false cfg h3
  obtain ⟨e1, h1⟩ := envelopeStep_of_changed_false cfg h2
  refine ⟨?_, h1, ?_, ?_, ?_⟩
  · rw [e3, e2, e1]
  · exact h2
  · rw [e1] at h3; exact h3
  · rw [e2, e1] at h; exact h

/-- A pass that reports no change is a fixpoint of the pass. -/
theorem propagateStep_stable (cfg : Config) {t : KB}
    (h : (propagateStep cfg t).changed = false) :
    propagateStep cfg (propagateStep cfg t) = propagateStep cfg t := by
  have hsp : propagateStep cfg t =
      checkSolution cfg (envelopeRule cfg (processAtleastOne cfg { t with changed := false })) := by
    unfold propagateStep
    rw [singlePossibilityRule_eq_self]
  rw [hsp] at h ⊢
  set u0 : KB := { t with changed := false } with hu0
  set u1 := processAtleastOne cfg u0 with hu1
  rw [checkSolution_changed] at h
  obtain ⟨henv, hu1c, hc1, hc2, hc3⟩ := envelopeRule_of_changed_false cfg h
  rw [henv]
  set r := checkSolution cfg u1 with hr
  have hrc : r.changed = false := by rw [hr, checkSolution_changed]; exact hu1c
  have hrp : r.poss = u1.poss := by rw [hr, checkSolution_poss]
  have hu0c : u0.changed = false := by rw [hu0]
  have hcons := processAtleastOne_no_change cfg hu1c hu0c
  have hra : r.atleastOne = u0.atleastOne.filter (keepPred cfg u0.poss) := by
    rw [hr, checkSolution_atleastOne, hu1, hcons]
  have hru1poss : u1.poss = u0.poss := by rw [hu1, hcons]
  have e0 : ({ r with changed := false } : KB) = r := kb_eta_changed_false hrc
  have e1 : processAtleastOne cfg r = r := by
    apply processAtleastOne_stable
    intro con hcon
    rw [hra] at hcon
    have hk := (List.mem_filter.mp hcon).2
    rw [hrp, hru1poss]
    exact hk
  have e2 : envelopeRule cfg r = r := by
    unfold envelopeRule
    have hrp2 : r.poss = u1.poss := hrp
    have s1 : envelopeStep cfg r cfg.characterNames = r :=
      envelopeStep_no_fire_transfer cfg hrp2 hc1 hrc
    rw [s1]
    have s2 : envelopeStep cfg r cfg.weaponNames = r :=
      envelopeStep_no_fire_transfer cfg hrp2 hc2 hrc
    rw [s2]
    exact envelopeStep_no_fire_transfer cfg hrp2 hc3 hrc
  unfold propagateStep
  rw [singlePossibilityRule_eq_self, e0, e1, e2, hr, checkSolution_idem]

/-! ### An assigned row stays assigned through propagation -/

theorem rowCount_of_indicator (cfg : Config) {poss : Nat → Nat → Bool} {ci hi : Nat}
    (hp : ∀ j, poss ci j = decide (j = hi)) (hlt : hi < cfg.numHolders) :
    rowCount cfg poss ci = 1 := by
  unfold rowCount
  rw [countP_ext (fun j _ => hp j), countP_range_decide_eq, if_pos hlt]

theorem constraintStep_row_preserved (cfg : Config)
    {acc : KB × List (Holder × List Nat)} {con : Holder × List Nat} {ci hi : Nat}
    (hp : ∀ j, acc.1.poss ci j = decide (j = hi)) :
    ∀ j, (constraintStep cfg acc con).1.poss ci j = decide (j = hi) := by
  intro j
  rcases constraintStep_cases cfg acc con with hc | hc | ⟨hi2, ci2, hhi, hfil, hc⟩
  · rw [hc]; exact hp j
  · rw [hc]; exact hp j
  · rw [hc]
    simp only
    unfold assignRow
    by_cases hcc : ci = ci2
    · rw [if_pos hcc]
      have hmem : ci2 ∈ con.2.filter (fun c => acc.1.poss c hi2) := by
        rw [hfil]; exact List.mem_cons_self _ _
      have hposs : acc.1.poss ci2 hi2 = true := (List.mem_filter.mp hmem).2
      rw [← hcc] at hposs
      rw [hp hi2] at hposs
      have : hi2 = hi := of_decide_eq_true hposs
      rw [this]
    · rw [if_neg hcc]; exact hp j

theorem foldl_constraintStep_row_preserved (cfg : Config) {ci hi : Nat} :
    ∀ (l : List (Holder × List Nat)) (acc : KB × List (Holder × List Nat)),
      (∀ j, acc.1.poss ci j = decide (j = hi)) →
      ∀ j, (l.foldl (constraintStep cfg) acc).1.poss ci j = decide (j = hi) := by
  intro l
  induction l with
  | nil => intro acc hp j; exact hp j
  | cons con t ih =>
    intro acc hp j
    rw [List.foldl_cons]
    exact ih _ (constraintStep_row_preserved cfg hp) j

theorem processAtleastOne_row_preserved (cfg : Config) {s : KB} {ci hi : Nat}
    (hp : ∀ j, s.poss ci j = decide (j = hi)) :
    ∀ j, (processAtleastOne cfg s).poss ci j = decide (j = hi) := by
  intro j
  unfold processAtleastOne
  exact foldl_constraintStep_row_preserved cfg s.atleastOne (s, []) hp j

theorem envelopeStep_row_preserved (cfg : Config) {s : KB} {cl : List String} {ci hi : Nat}
    (hp : ∀ j, s.poss ci j = decide (j = hi)) (hlt : hi < cfg.numHolders) :
    ∀ j, (envelopeStep cfg s cl).poss ci j = decide (j = hi) := by
  intro j
  unfold envelopeStep
  set cis := cl.filterMap (cardToIdx cfg) with hcis
  set possEnv := cis.filter (fun c => s.poss c (envIdx cfg)) with henv
  by_cases h1 : possEnv.length = 1
  · rw [if_pos h1]
    by_cases h2 : isAssigned cfg s.poss possEnv.headI = false
    · rw [if_pos h2]
      simp only
      unfold assignRow
      by_cases hcc : ci = possEnv.headI
      · exfalso
        rw [← hcc] at h2
        unfold isAssigned at h2
        rw [rowCount_of_indicator cfg hp hlt] at h2
        simp at h2
      · rw [if_neg (fun hx => hcc hx)]
        exact hp j
    · rw [if_neg h2]; exact hp j
  · rw [if_neg h1]; exact hp j

theorem envelopeRule_row_preserved (cfg : Config) {s : KB} {ci hi : Nat}
    (hp : ∀ j, s.poss ci j = decide (j = hi)) (hlt : hi < cfg.numHolders) :
    ∀ j, (envelopeRule cfg s).poss ci j = decide (j = hi) := by
  unfold envelopeRule
  exact envelopeStep_row_preserved cfg
    (envelopeStep_row_preserved cfg (envelopeStep_row_preserved cfg hp hlt) hlt) hlt

theorem propagateStep_row_preserved (cfg : Config) {s : KB} {ci hi : Nat}
    (hp : ∀ j, s.poss ci j = decide (j = hi)) (hlt : hi < cfg.numHolders) :
    ∀ j, (propagateStep cfg s).poss ci j = decide (j = hi) := by
  intro j
  unfold propagateStep
  rw [singlePossibilityRule_eq_self, checkSolution_poss]
  exact envelopeRule_row_preserved cfg
    (@processAtleastOne_row_preserved cfg { s with changed := false } ci hi hp) hlt j

theorem propagateAux_row_preserved (cfg : Config) {ci hi : Nat} (hlt : hi < cfg.numHolders) :
    ∀ (fuel : Nat) (s : KB), (∀ j, s.poss ci j = decide (j = hi)) →
      ∀ j, (propagateAux cfg fuel s).poss ci j = decide (j = hi) := by
  intro fuel
  induction fuel with
  | zero => intro s hp j; exact hp j
  | succ m ih =>
    intro s hp j
    unfold propagateAux
    cases hc : s.changed with
    | false => simpa using hp j
    | true =>
      simp only [if_true]
      exact ih _ (propagateStep_row_preserved cfg hp hlt) j

theorem propagate_row_preserved (cfg : Config) {s : KB} {ci hi : Nat}
    (hlt : hi < cfg.numHolders) (hp : ∀ j, s.poss ci j = decide (j = hi)) :
    ∀ j, (propagate cfg s).poss ci j = decide (j = hi) :=
  propagateAux_row_preserved cfg hlt _ s hp

/-- A mutator-style call to `_propagate` from a state at its pass fixpoint
returns that state unchanged. -/
theorem propagate_of_stable (cfg : Config) {s1 : KB}
    (hc : s1.changed = false) (hstab : propagateStep cfg s1 = s1) :
    propagate cfg ({ s1 with changed := true }) = s1 := by
  unfold propagate fuelFor
  have hnum : ({ s1 with changed := true } : KB).atleastOne.length + cfg.numCards + 1 =
      (s1.atleastOne.length + cfg.numCards) + 1 := rfl
  rw [hnum]
  unfold propagateAux
  simp only [if_true]
  have hstep : propagateStep cfg ({ s1 with changed := true }) = propagateStep cfg s1 := rfl
  rw [hstep, hstab]
  exact propagateAux_of_changed_false cfg hc _

/-- Claim C9: `set_holder` is idempotent — for every state and every valid
card and holder, the possibility matrix after calling
`set_holder(card, holder)` twice equals the matrix after the first call (in
fact the whole knowledge-base state is reproduced). -/
theorem assign_idempotent (cfg : Config) (s : KB) {c : String} {h : Holder} {ci hi : Nat}
    (hc : cardToIdx cfg c = some ci) (hh : holderToIdx cfg h = some hi) :
    (setHolder cfg (setHolder cfg s c h) c h).poss = (setHolder cfg s c h).poss := by
  have hset : ∀ u : KB, setHolder cfg u c h =
      propagate cfg { u with poss := assignRow u.poss ci hi, changed := true } := by
    intro u
    unfold setHolder
    rw [hc, hh]
  set t0 : KB := { s with poss := assignRow s.poss ci hi, changed := true } with ht0
  have hs1def : setHolder cfg s c h = propagate cfg t0 := hset s
  set s1 := propagate cfg t0 with hs1
  have hrow0 : ∀ j, t0.poss ci j = decide (j = hi) := by
    intro j
    rw [ht0]
    simp only
    unfold assignRow
    rw [if_pos rfl]
  have hlt : hi < cfg.numHolders := holderToIdx_lt cfg hh
  have hrow1 : ∀ j, s1.poss ci j = decide (j = hi) := by
    rw [hs1]
    exact propagate_row_preserved cfg hlt hrow0
  have hs1c : s1.changed = false := by
    rw [hs1]
    exact propagateAux_fix cfg _ _ (kbMeasure_lt_fuelFor cfg t0)
  have ht0c : t0.changed = true := by rw [ht0]
  obtain ⟨t, ht⟩ : ∃ t, s1 = propagateStep cfg t := by
    rw [hs1]
    unfold propagate
    exact propagateAux_is_step cfg _ ht0c (kbMeasure_lt_fuelFor cfg t0)
  have hstab : propagateStep cfg s1 = s1 := by
    rw [ht]
    apply propagateStep_stable
    rw [← ht]
    exact hs1c
  have hpossEq : assignRow s1.poss ci hi = s1.poss := by
    funext i j
    unfold assignRow
    by_cases hic : i = ci
    · rw [if_pos hic, hic, hrow1 j]
    · rw [if_neg hic]
  have hsecond : setHolder cfg s1 c h = s1 := by
    rw [hset s1, hpossEq]
    have : ({ s1 with poss := s1.poss, changed := true } : KB) =
        ({ s1 with changed := true } : KB) := rfl
    rw [this]
    exact propagate_of_stable cfg hs1c hstab
  rw [hs1def, hsecond]

/-- Claim C9, witness: the idempotence theorem applied to a fresh two-player
engine, `set_holder("A", player 1)` twice. -/
theorem assign_idempotent_witness :
    (setHolder cfgEx (setHolder cfgEx initKB "A" (Holder.player 1)) "A" (Holder.player 1)).poss =
      (setHolder cfgEx initKB "A" (Holder.player 1)).poss :=
  assign_idempotent cfgEx initKB
    (show cardToIdx cfgEx "A" = some 0 by decide)
    (show holderToIdx cfgEx (Holder.player 1) = some 1 by decide)

theorem pmFind_append (l : List (String × List Holder)) (e : String × List Holder)
    (c2 : String) :
    pmFind (l ++ [e]) c2 =
      match pmFind l c2 with
      | some v => some v
      | none => if e.1 = c2 then some e.2 else none := by
  induction l with
  | nil => simp [pmFind]
  | cons a t ih =>
    rw [List.cons_append]
    by_cases ha : a.1 = c2
    · simp [pmFind, ha]
    · simp only [pmFind, ha, if_false, ite_false]
      exact ih

/-- Claim C8: `possible_holders` is a pure query.  For a valid card it returns
exactly the holders whose matrix entry is `true` (first conjunct); its result
depends on nothing but the possibility matrix, so consecutive calls on an
unchanged state agree (second conjunct); and the set-based
`KnowledgeBase.possible_holders` — a `deepcopy` of a `defaultdict` value whose
access at worst materialises the default entry — returns the denoted holder
set and leaves the matrix, viewed as the map it denotes, extensionally
unchanged at every card (third conjunct). -/
theorem possible_holders_pure_query (cfg : Config) (s : KB) {c : String} {ci : Nat}
    (hc : cardToIdx cfg c = some ci) :
    (∀ h : Holder, h ∈ possibleHolders cfg s c ↔
      ∃ i, i < cfg.numHolders ∧ cfg.holders.get? i = some h ∧ s.poss ci i = true) ∧
    (∀ t : KB, t.poss = s.poss → possibleHolders cfg t c = possibleHolders cfg s c) ∧
    (∀ m : PMatrix, (possibleHoldersSetKB m c).1 = pmLookupD m c ∧
      ∀ c2, pmLookupD (possibleHoldersSetKB m c).2 c2 = pmLookupD m c2) := by
  refine ⟨?_, ?_, ?_⟩
  · intro h
    unfold possibleHolders
    rw [hc]
    simp only [List.mem_filterMap, List.mem_filter, List.mem_range]
    constructor
    · rintro ⟨i, ⟨hir, hip⟩, hg⟩
      exact ⟨i, hir, hg, hip⟩
    · rintro ⟨i, hir, hg, hip⟩
      exact ⟨i, ⟨hir, hip⟩, hg⟩
  · intro t ht
    unfold possibleHolders
    rw [hc, ht]
  · intro m
    constructor
    · unfold possibleHoldersSetKB pmLookupD
      cases pmFind m.entries c <;> rfl
    · intro c2
      unfold possibleHoldersSetKB
      cases hf : pmFind m.entries c with
      | some v => rfl
      | none =>
        unfold pmLookupD
        simp only
        rw [pmFind_append]
        cases hf2 : pmFind m.entries c2 with
        | some v => rfl
        | none =>
          simp only
          by_cases hcc : c = c2
          · rw [if_pos hcc]
          · rw [if_neg hcc]

/-- Claim C8, witness: the characterization applied on a fresh two-player
engine to card "A" — the envelope (holder index 2) is a possible holder. -/
theorem possible_holders_pure_query_witness :
    Holder.envelope ∈ possibleHolders cfgEx initKB "A" :=
  ((possible_holders_pure_query cfgEx initKB
      (show cardToIdx cfgEx "A" = some 0 by decide)).1 Holder.envelope).mpr
    ⟨2, by decide, by decide, rfl⟩

/-! ### The passed-player walk computes the circular between-set -/

theorem filterMap_ext {α β : Type} {l : List α} {f g : α → Option β}
    (h : ∀ x ∈ l, f x = g x) : l.filterMap f = l.filterMap g := by
  induction l with
  | nil => rfl
  | cons a t ih =>
    rw [List.filterMap_cons, List.filterMap_cons, h a (List.mem_cons_self _ _),
      ih (fun x hx => h x (List.mem_cons_of_mem _ hx))]

theorem passedAux_spec (cfg : Config) {ri : Nat} (hri : ri < cfg.playerIds.length) :
    ∀ (k cur fuel : Nat), cur < cfg.playerIds.length →
      (ri + cfg.playerIds.length - cur) % cfg.playerIds.length = k → k ≤ fuel →
      passedAux cfg ri fuel cur =
        (List.range k).filterMap
          (fun j => cfg.playerIds.get? ((cur + j) % cfg.playerIds.length)) := by
  intro k
  induction k with
  | zero =>
    intro cur fuel hcur hdist _
    have hn1 : 1 ≤ cfg.playerIds.length := by omega
    have hcr : cur = ri := by
      rcases Nat.lt_or_ge (ri + cfg.playerIds.length - cur) cfg.playerIds.length with hlt | hge
      · rw [Nat.mod_eq_of_lt hlt] at hdist
        omega
      · rw [Nat.mod_eq_sub_mod hge, Nat.mod_eq_of_lt (by omega)] at hdist
        omega
    subst hcr
    cases fuel with
    | zero => rfl
    | succ f =>
      unfold passedAux
      rw [if_pos rfl]
      simp
  | succ k ih =>
    intro cur fuel hcur hdist hfuel
    have hn1 : 1 ≤ cfg.playerIds.length := by omega
    have hkn : k + 1 < cfg.playerIds.length := by
      rw [← hdist]
      exact Nat.mod_lt _ (by omega)
    have hcne : cur ≠ ri := by
      intro hcr
      subst hcr
      have hz : cur + cfg.playerIds.length - cur = cfg.playerIds.length := by omega
      rw [hz, Nat.mod_self] at hdist
      omega
    cases fuel with
    | zero => omega
    | succ f =>
      unfold passedAux
      rw [if_neg hcne]
      have hget : cfg.playerIds.get? cur = some (cfg.playerIds.get ⟨cur, hcur⟩) :=
        List.get?_eq_get hcur
      rw [hget]
      simp only
      have hcur2lt : (cur + 1) % cfg.playerIds.length < cfg.playerIds.length :=
        Nat.mod_lt _ (by omega)
      have hdist2 : (ri + cfg.playerIds.length - (cur + 1) % cfg.playerIds.length) %
          cfg.playerIds.length = k := by
        rcases Nat.lt_or_ge (cur + 1) cfg.playerIds.length with hc1 | hc1
        · rw [Nat.mod_eq_of_lt hc1]
          rcases Nat.lt_or_ge (ri + cfg.playerIds.length - cur) cfg.playerIds.length
            with hlt | hge
          · rw [Nat.mod_eq_of_lt hlt] at hdist
            rw [Nat.mod_eq_of_lt (by omega)]
            omega
          · rw [Nat.mod_eq_sub_mod hge, Nat.mod_eq_of_lt (by omega)] at hdist
            rw [Nat.mod_eq_sub_mod (by omega), Nat.mod_eq_of_lt (by omega)]
            omega
        · have hc2 : cur + 1 = cfg.playerIds.length := by omega
          rw [hc2, Nat.mod_self, Nat.sub_zero, Nat.mod_eq_sub_mod (by omega),
            Nat.mod_eq_of_lt (by omega)]
          have hD : ri + cfg.playerIds.length - cur = ri + 1 := by omega
          rw [hD] at hdist
          rcases Nat.lt_or_ge (ri + 1) cfg.playerIds.length with hr1 | hr1
          · rw [Nat.mod_eq_of_lt hr1] at hdist
            omega
          · have hr2 : ri + 1 = cfg.playerIds.length := by omega
            rw [hr2, Nat.mod_self] at hdist
            omega
      have hrec := ih ((cur + 1) % cfg.playerIds.length) f hcur2lt hdist2 (by omega)
      rw [hrec]
      rw [List.range_succ_eq_map, List.filterMap_cons]
      have hf0 : cfg.playerIds.get? ((cur + 0) % cfg.playerIds.length) =
          some (cfg.playerIds.get ⟨cur, hcur⟩) := by
        rw [Nat.add_zero, Nat.mod_eq_of_lt hcur]
        exact hget
      rw [hf0]
      rw [List.filterMap_map]
      congr 1
      apply filterMap_ext
      intro j _
      have h1 : ((cur + 1) % cfg.playerIds.length + j) % cfg.playerIds.length =
          (cur + (j + 1)) % cfg.playerIds.length := by
        rw [Nat.mod_add_mod]
        have h2 : cur + 1 + j = cur + (j + 1) := by omega
        rw [h2]
      show cfg.playerIds.get? (((cur + 1) % cfg.playerIds.length + j) % cfg.playerIds.length) =
        cfg.playerIds.get? ((cur + Nat.succ j) % cfg.playerIds.length)
      rw [h1]

theorem passedPlayers_eq_betweenSpec (cfg : Config) {sug resp : Nat}
    (hs : sug ∈ cfg.playerIds) (hr : resp ∈ cfg.playerIds) :
    passedPlayers cfg sug resp = betweenSpec cfg sug resp := by
  unfold passedPlayers betweenSpec
  have hn1 : 1 ≤ cfg.playerIds.length := List.length_pos_of_mem hr
  have hri : cfg.playerIds.indexOf resp < cfg.playerIds.length :=
    List.indexOf_lt_length.mpr hr
  have hsi : cfg.playerIds.indexOf sug < cfg.playerIds.length :=
    List.indexOf_lt_length.mpr hs
  set n := cfg.playerIds.length with hn
  set si := cfg.playerIds.indexOf sug with hsidef
  set ri := cfg.playerIds.indexOf resp with hridef
  have hc0 : (si + 1) % n < n := Nat.mod_lt _ (by omega)
  have hdeq : (ri + n - (si + 1) % n) % n = (ri + n - (si + 1)) % n := by
    rcases Nat.lt_or_ge (si + 1) n with h1 | h1
    · rw [Nat.mod_eq_of_lt h1]
    · have h2 : si + 1 = n := by omega
      rw [h2, Nat.mod_self, Nat.sub_zero, Nat.add_sub_cancel, Nat.add_mod_right]
  have hk : (ri + n - (si + 1) % n) % n < n := Nat.mod_lt _ (by omega)
  rw [passedAux_spec cfg hri ((ri + n - (si + 1) % n) % n) ((si + 1) % n) n hc0 rfl
    (le_of_lt hk)]
  rw [hdeq]
  apply filterMap_ext
  intro j _
  rw [Nat.mod_add_mod]

theorem elimThree_poss_le (cfg : Config) (s : KB) (sg : String × String × String)
    (pid : Nat) : possLE (elimThree cfg s sg pid).poss s.poss := by
  unfold elimThree
  exact possLE_trans (eliminate_poss_le cfg _ _ _)
    (possLE_trans (eliminate_poss_le cfg _ _ _) (eliminate_poss_le cfg _ _ _))

theorem foldl_elimThree_poss_le (cfg : Config) (sg : String × String × String) :
    ∀ (l : List Nat) (acc : KB),
      possLE (l.foldl (fun t pid => elimThree cfg t sg pid) acc).poss acc.poss := by
  intro l
  induction l with
  | nil => intro acc; exact possLE_refl _
  | cons p t ih =>
    intro acc
    rw [List.foldl_cons]
    exact possLE_trans (ih _) (elimThree_poss_le cfg acc sg p)

/-- Claim C5 (amended): for a suggestion event with a responder and no card
seen, the engine records the at-least-one constraint for the responder and
eliminates each of the three suggested cards for exactly the players strictly
between suggester and responder in circular turn order — the code's index walk
provably equals that circular between-set — and beyond these primitive updates
any further change is the monotone narrowing done by constraint propagation:
no possibility is ever added anywhere.  (The claim's original frame clause "no
other player's possibilities are changed" is false: the recorded constraint
propagates and can narrow other players — see the counterexample.) -/
theorem unknown_reveal_update (cfg : Config) (s : KB) {sug resp : Nat}
    (hs : sug ∈ cfg.playerIds) (hr : resp ∈ cfg.playerIds)
    (sg : String × String × String) :
    passedPlayers cfg sug resp = betweenSpec cfg sug resp ∧
    updateFromSuggestion cfg s sug sg (some resp) none =
      (betweenSpec cfg sug resp).foldl (fun t pid => elimThree cfg t sg pid)
        (recordAtleastOne cfg s (Holder.player resp) [sg.1, sg.2.1, sg.2.2]) ∧
    (∀ i j, (updateFromSuggestion cfg s sug sg (some resp) none).poss i j = true →
      s.poss i j = true) := by
  have heq := passedPlayers_eq_betweenSpec cfg hs hr
  have hdef : updateFromSuggestion cfg s sug sg (some resp) none =
      (passedPlayers cfg sug resp).foldl (fun t pid => elimThree cfg t sg pid)
        (recordAtleastOne cfg s (Holder.player resp) [sg.1, sg.2.1, sg.2.2]) := rfl
  refine ⟨heq, ?_, ?_⟩
  · rw [hdef, heq]
  · intro i j hij
    rw [hdef] at hij
    have hm1 := foldl_elimThree_poss_le cfg sg (passedPlayers cfg sug resp)
      (recordAtleastOne cfg s (Holder.player resp) [sg.1, sg.2.1, sg.2.2])
    have hm2 := recordAtleastOne_poss_le cfg s (Holder.player resp) [sg.1, sg.2.1, sg.2.2]
    exact hm2 i j (hm1 i j hij)

/-- Claim C5, counterexample to the original frame clause: two players,
suggester player 0, responder player 1 (nobody strictly between).  Player 1 is
already known not to hold "A" or "C", so recording the constraint forces card
"E" to player 1 — which removes player 0 (entry (4,0)) from "E"'s
possibilities, although player 0 is not a passed player. -/
theorem unknown_reveal_update_cex :
    passedPlayers cfgEx 0 1 = [] ∧
    (eliminate cfgEx (eliminate cfgEx initKB "A" (Holder.player 1)) "C"
      (Holder.player 1)).poss 4 0 = true ∧
    (updateFromSuggestion cfgEx
      (eliminate cfgEx (eliminate cfgEx initKB "A" (Holder.player 1)) "C" (Holder.player 1))
      0 ("A", "C", "E") (some 1) none).poss 4 0 = false := by
  decide

/-- Claim C5, witness: the amended theorem applied to a four-player engine
with suggester 10 and responder 13. -/
theorem unknown_reveal_update_witness :
    passedPlayers cfgFour 10 13 = betweenSpec cfgFour 10 13 :=
  (unknown_reveal_update cfgFour initKB (by decide) (by decide) ("A", "C", "E")).1

/-! ### A no-response suggestion walks the envelope-singleton family -/

theorem famPoss_nil (cfg : Config) : famPoss cfg [] = fun _ _ => true := by
  funext i j
  unfold famPoss
  simp

theorem famPoss_env (cfg : Config) (A : List Nat) (i : Nat) :
    famPoss cfg A i (envIdx cfg) = true := by
  unfold famPoss
  by_cases h : i ∈ A
  · simp [h]
  · simp [h]

theorem rowCount_famPoss_mem (cfg : Config) {A : List Nat} {i : Nat} (h : i ∈ A) :
    rowCount cfg (famPoss cfg A) i = 1 := by
  apply rowCount_of_indicator cfg _ (envIdx_lt cfg)
  intro j
  unfold famPoss
  rw [if_pos h]

theorem rowCount_famPoss_not_mem (cfg : Config) {A : List Nat} {i : Nat} (h : i ∉ A) :
    rowCount cfg (famPoss cfg A) i = cfg.numHolders := by
  unfold rowCount
  have he : ∀ j ∈ List.range cfg.numHolders, famPoss cfg A i j = (fun _ => true) j := by
    intro j _
    unfold famPoss
    rw [if_neg h]
  rw [countP_ext he]
  simp [List.countP_true]

theorem assignRow_famPoss (cfg : Config) (A : List Nat) (x : Nat) :
    assignRow (famPoss cfg A) x (envIdx cfg) = famPoss cfg (x :: A) := by
  funext i j
  unfold assignRow famPoss
  by_cases hix : i = x
  · subst hix
    rw [if_pos rfl, if_pos (List.mem_cons_self _ _)]
  · rw [if_neg hix]
    by_cases hia : i ∈ A
    · rw [if_pos hia, if_pos (List.mem_cons_of_mem _ hia)]
    · rw [if_neg hia, if_neg (fun hmem => by
        rcases List.mem_cons.mp hmem with h1 | h2
        · exact hix h1
        · exact hia h2)]

theorem envelopeStep_fam (cfg : Config) {u : KB} {A : List Nat} {L : List String}
    (hplayers : cfg.playerIds ≠ []) (hp : u.poss = famPoss cfg A) :
    ∃ A', (envelopeStep cfg u L).poss = famPoss cfg A' ∧
      (∀ x ∈ A, x ∈ A') ∧
      (∀ x ∈ A', x ∈ A ∨ L.filterMap (cardToIdx cfg) = [x]) := by
  have hH2 : 2 ≤ cfg.numHolders := by
    rw [numHolders_eq]
    have : cfg.playerIds.length ≠ 0 := fun h0 => hplayers (List.length_eq_zero.mp h0)
    omega
  simp only [envelopeStep]
  have hfe : (L.filterMap (cardToIdx cfg)).filter (fun c => u.poss c (envIdx cfg)) =
      L.filterMap (cardToIdx cfg) := by
    apply List.filter_eq_self.mpr
    intro a _
    rw [hp]
    exact famPoss_env cfg A a
  rw [hfe]
  by_cases h1 : (L.filterMap (cardToIdx cfg)).length = 1
  · rw [if_pos h1]
    set hd := (L.filterMap (cardToIdx cfg)).headI with hhd
    by_cases h2 : isAssigned cfg u.poss hd = false
    · rw [if_pos h2]
      refine ⟨hd :: A, ?_, ?_, ?_⟩
      · simp only
        rw [hp, assignRow_famPoss]
      · intro x hx; exact List.mem_cons_of_mem _ hx
      · intro x hx
        rcases List.mem_cons.mp hx with h3 | h3
        · right
          rw [length_eq_one_eq_headI h1, ← hhd, h3]
        · left; exact h3
    · rw [if_neg h2]
      exact ⟨A, hp, fun x hx => hx, fun x hx => Or.inl hx⟩
  · rw [if_neg h1]
    exact ⟨A, hp, fun x hx => hx, fun x hx => Or.inl hx⟩

/-- The indices that every envelope-exclusivity firing can add: sole registered
card of one of the three categories. -/
theorem propagateStep_fam (cfg : Config) {u : KB} {A : List Nat}
    (hplayers : cfg.playerIds ≠ []) (hp : u.poss = famPoss cfg A)
    (ha : u.atleastOne = []) :
    ∃ A', (propagateStep cfg u).poss = famPoss cfg A' ∧
      (∀ x ∈ A, x ∈ A') ∧
      (∀ x ∈ A', x ∈ A ∨ cfg.characterNames.filterMap (cardToIdx cfg) = [x] ∨
        cfg.weaponNames.filterMap (cardToIdx cfg) = [x] ∨
        cfg.roomNames.filterMap (cardToIdx cfg) = [x]) ∧
      (propagateStep cfg u).atleastOne = [] := by
  unfold propagateStep
  rw [singlePossibilityRule_eq_self]
  have hcons : processAtleastOne cfg ({ u with changed := false }) =
      ({ u with changed := false }) :=
    processAtleastOne_empty cfg ha
  rw [hcons]
  have hp0 : ({ u with changed := false } : KB).poss = famPoss cfg A := hp
  unfold envelopeRule
  obtain ⟨A1, hA1p, hA1s, hA1c⟩ := envelopeStep_fam cfg hplayers hp0
  obtain ⟨A2, hA2p, hA2s, hA2c⟩ := envelopeStep_fam cfg hplayers hA1p
  obtain ⟨A3, hA3p, hA3s, hA3c⟩ := envelopeStep_fam cfg hplayers hA2p
  refine ⟨A3, ?_, ?_, ?_, ?_⟩
  · rw [checkSolution_poss]
    exact hA3p
  · intro x hx
    exact hA3s _ (hA2s _ (hA1s _ hx))
  · intro x hx
    rcases hA3c x hx with h3 | h3
    · rcases hA2c x h3 with h2 | h2
      · rcases hA1c x h2 with h1 | h1
        · exact Or.inl h1
        · exact Or.inr (Or.inl h1)
      · exact Or.inr (Or.inr (Or.inl h2))
    · exact Or.inr (Or.inr (Or.inr h3))
  · rw [checkSolution_atleastOne, envelopeStep_atleastOne, envelopeStep_atleastOne,
      envelopeStep_atleastOne]
    exact ha

theorem propagateAux_fam (cfg : Config) (hplayers : cfg.playerIds ≠ []) :
    ∀ (fuel : Nat) {u : KB} {A : List Nat}, u.poss = famPoss cfg A → u.atleastOne = [] →
    ∃ A', (propagateAux cfg fuel u).poss = famPoss cfg A' ∧
      (∀ x ∈ A, x ∈ A') ∧
      (∀ x ∈ A', x ∈ A ∨ cfg.characterNames.filterMap (cardToIdx cfg) = [x] ∨
        cfg.weaponNames.filterMap (cardToIdx cfg) = [x] ∨
        cfg.roomNames.filterMap (cardToIdx cfg) = [x]) ∧
      (propagateAux cfg fuel u).atleastOne = [] := by
  intro fuel
  induction fuel with
  | zero =>
    intro u A hp ha
    exact ⟨A, hp, fun x hx => hx, fun x hx => Or.inl hx, ha⟩
  | succ m ih =>
    intro u A hp ha
    cases hc : u.changed with
    | false =>
      rw [propagateAux_of_changed_false cfg hc]
      exact ⟨A, hp, fun x hx => hx, fun x hx => Or.inl hx, ha⟩
    | true =>
      unfold propagateAux
      simp only [hc, if_true]
      obtain ⟨A1, hA1p, hA1s, hA1c, hA1a⟩ := propagateStep_fam cfg hplayers hp ha
      obtain ⟨A2, hA2p, hA2s, hA2c, hA2a⟩ := ih hA1p hA1a
      refine ⟨A2, hA2p, ?_, ?_, hA2a⟩
      · intro x hx
        exact hA2s _ (hA1s _ hx)
      · intro x hx
        rcases hA2c x hx with h2 | h2
        · exact hA1c x h2
        · exact Or.inr h2

theorem setHolder_envelope_fam (cfg : Config) (hplayers : cfg.playerIds ≠ [])
    {u : KB} {A : List Nat} {c : String} {ci : Nat}
    (hc : cardToIdx cfg c = some ci) (hp : u.poss = famPoss cfg A)
    (ha : u.atleastOne = []) :
    ∃ A', (setHolder cfg u c Holder.envelope).poss = famPoss cfg A' ∧ ci ∈ A' ∧
      (∀ x ∈ A, x ∈ A') ∧
      (∀ x ∈ A', x = ci ∨ x ∈ A ∨ cfg.characterNames.filterMap (cardToIdx cfg) = [x] ∨
        cfg.weaponNames.filterMap (cardToIdx cfg) = [x] ∨
        cfg.roomNames.filterMap (cardToIdx cfg) = [x]) ∧
      (setHolder cfg u c Holder.envelope).atleastOne = [] := by
  unfold setHolder
  rw [hc, holderToIdx_envelope]
  simp only
  have hrw : assignRow u.poss ci cfg.playerIds.length = famPoss cfg (ci :: A) := by
    rw [hp, ← envIdx_eq, assignRow_famPoss]
  set t : KB := { u with poss := assignRow u.poss ci cfg.playerIds.length, changed := true }
    with htdef
  have htp : t.poss = famPoss cfg (ci :: A) := hrw
  have hta : t.atleastOne = [] := ha
  obtain ⟨A', hA'p, hA's, hA'c, hA'a⟩ := propagateAux_fam cfg hplayers _ htp hta
  refine ⟨A', hA'p, hA's _ (List.mem_cons_self _ _), ?_, ?_, hA'a⟩
  · intro x hx
    exact hA's _ (List.mem_cons_of_mem _ hx)
  · intro x hx
    rcases hA'c x hx with h1 | h1
    · rcases List.mem_cons.mp h1 with h2 | h2
      · exact Or.inl h2
      · exact Or.inr (Or.inl h2)
    · exact Or.inr (Or.inr h1)

theorem numHolders_ge_two (cfg : Config) (h : cfg.playerIds ≠ []) : 2 ≤ cfg.numHolders := by
  rw [numHolders_eq]
  have : cfg.playerIds.length ≠ 0 := fun h0 => h (List.length_eq_zero.mp h0)
  omega

theorem filter_range_decide_eq (n k : Nat) :
    (List.range n).filter (fun j => decide (j = k)) = if k < n then [k] else [] := by
  induction n with
  | zero => simp
  | succ m ih =>
    rw [List.range_succ, List.filter_append, ih]
    by_cases h : k < m
    · have hne : ¬ (m = k) := by omega
      simp [hne, h, Nat.lt_succ_of_lt h]
    · by_cases h2 : k = m
      · subst h2
        simp [h]
      · have hne : ¬ (m = k) := fun hh => h2 hh.symm
        have h3 : ¬ (k < m + 1) := by omega
        simp [hne, h, h3]

theorem filter_ext {α : Type} {l : List α} {p q : α → Bool}
    (h : ∀ x ∈ l, p x = q x) : l.filter p = l.filter q := by
  induction l with
  | nil => rfl
  | cons a t ih =>
    rw [List.filter_cons, List.filter_cons, h a (List.mem_cons_self _ _),
      ih (fun x hx => h x (List.mem_cons_of_mem _ hx))]

theorem filter_eq_singleton_of {α : Type} {l : List α} {p : α → Bool} {a : α}
    (hnd : l.Nodup) (ha : a ∈ l) (hpa : p a = true)
    (hun : ∀ y ∈ l, p y = true → y = a) : l.filter p = [a] := by
  induction l with
  | nil => cases ha
  | cons b t ih =>
    rw [List.filter_cons]
    rcases List.mem_cons.mp ha with rfl | hat
    · rw [hpa]
      simp only [if_true]
      have hnt : ∀ y ∈ t, ¬ p y = true := by
        intro y hy hpy
        have := hun y (List.mem_cons_of_mem _ hy) hpy
        subst this
        exact (List.nodup_cons.mp hnd).1 hy
      rw [List.filter_eq_nil.mpr hnt]
    · have hpb : p b = false := by
        cases hx : p b
        · rfl
        · have := hun b (List.mem_cons_self _ _) hx
          subst this
          exact absurd hat (List.nodup_cons.mp hnd).1
      rw [hpb]
      simp only [Bool.false_eq_true, if_false]
      exact ih (List.nodup_cons.mp hnd).2 hat
        (fun y hy hpy => hun y (List.mem_cons_of_mem _ hy) hpy)

theorem possibleHolders_fam_mem (cfg : Config) {s : KB} {A : List Nat} {c : String}
    {ci : Nat} (hc : cardToIdx cfg c = some ci) (hp : s.poss = famPoss cfg A)
    (hm : ci ∈ A) : possibleHolders cfg s c = [Holder.envelope] := by
  unfold possibleHolders
  rw [hc]
  simp only
  rw [hp]
  have he : ∀ i ∈ List.range cfg.numHolders,
      (famPoss cfg A ci i) = decide (i = envIdx cfg) := by
    intro i _
    unfold famPoss
    rw [if_pos hm]
  rw [filter_ext he, filter_range_decide_eq, if_pos (envIdx_lt cfg),
    List.filterMap_cons, holders_get_envIdx]
  rfl

theorem assignedToEnvB_fam (cfg : Config) (hH2 : 2 ≤ cfg.numHolders) {A : List Nat}
    {c : String} {ci : Nat} (hc : cardToIdx cfg c = some ci) :
    assignedToEnvB cfg (famPoss cfg A) c = decide (ci ∈ A) := by
  simp only [assignedToEnvB, hc]
  unfold isAssignedTo isAssigned
  by_cases hm : ci ∈ A
  · rw [rowCount_famPoss_mem cfg hm]
    simp [hm, famPoss_env]
  · rw [rowCount_famPoss_not_mem cfg hm]
    have hne : ¬ (cfg.numHolders = 1) := by omega
    simp [hm, hne]

theorem soleCat_target (cfg : Config) {L : List String} {tgt : String} {ti x : Nat}
    (ht : tgt ∈ L) (hti : cardToIdx cfg tgt = some ti)
    (hs : L.filterMap (cardToIdx cfg) = [x]) : x = ti := by
  have hmem : ti ∈ L.filterMap (cardToIdx cfg) := List.mem_filterMap.mpr ⟨tgt, ht, hti⟩
  rw [hs] at hmem
  rcases List.mem_cons.mp hmem with h | h
  · exact h.symm
  · cases h

theorem cards_nodup_parts (cfg : Config) (h : cfg.cards.Nodup) :
    cfg.characterNames.Nodup ∧ cfg.weaponNames.Nodup ∧ cfg.roomNames.Nodup ∧
    (∀ x, x ∈ cfg.characterNames → x ∈ cfg.weaponNames → False) ∧
    (∀ x, x ∈ cfg.characterNames → x ∈ cfg.roomNames → False) ∧
    (∀ x, x ∈ cfg.weaponNames → x ∈ cfg.roomNames → False) := by
  unfold Config.cards at h
  rw [List.append_assoc, List.nodup_append] at h
  obtain ⟨h1, h23, hd⟩ := h
  rw [List.nodup_append] at h23
  obtain ⟨h2, h3, hd23⟩ := h23
  refine ⟨h1, h2, h3, ?_, ?_, ?_⟩
  · intro x hx1 hx2
    exact hd hx1 (List.mem_append_left _ hx2)
  · intro x hx1 hx3
    exact hd hx1 (List.mem_append_right _ hx3)
  · intro x hx2 hx3
    exact hd23 hx2 hx3

theorem mem_cards_of_char (cfg : Config) {c : String} (h : c ∈ cfg.characterNames) :
    c ∈ cfg.cards := List.mem_append_left _ (List.mem_append_left _ h)

theorem mem_cards_of_weapon (cfg : Config) {c : String} (h : c ∈ cfg.weaponNames) :
    c ∈ cfg.cards := List.mem_append_left _ (List.mem_append_right _ h)

theorem mem_cards_of_room (cfg : Config) {c : String} (h : c ∈ cfg.roomNames) :
    c ∈ cfg.cards := List.mem_append_right _ h

/-- Claim C4: on a fresh engine (no cards assigned), processing a suggestion
event with no responder assigns each of the three suggested cards (one per
category) to the envelope, making each envelope-only; afterwards the solution
is known and the solution query returns exactly those three cards. -/
theorem no_response_suggestion_solves (cfg : Config) (sugr : Nat)
    {su we ro : String} {isu iwe iro : Nat}
    (hnd : cfg.cards.Nodup) (hplayers : cfg.playerIds ≠ [])
    (hsu : su ∈ cfg.characterNames) (hwe : we ∈ cfg.weaponNames)
    (hro : ro ∈ cfg.roomNames)
    (hisu : cardToIdx cfg su = some isu) (hiwe : cardToIdx cfg we = some iwe)
    (hiro : cardToIdx cfg ro = some iro) :
    possibleHolders cfg (updateFromSuggestion cfg initKB sugr (su, we, ro) none none) su =
      [Holder.envelope] ∧
    possibleHolders cfg (updateFromSuggestion cfg initKB sugr (su, we, ro) none none) we =
      [Holder.envelope] ∧
    possibleHolders cfg (updateFromSuggestion cfg initKB sugr (su, we, ro) none none) ro =
      [Holder.envelope] ∧
    isSolutionKnown (updateFromSuggestion cfg initKB sugr (su, we, ro) none none) = true ∧
    getSolution (updateFromSuggestion cfg initKB sugr (su, we, ro) none none) =
      some (su, we, ro) := by
  obtain ⟨hndC, hndW, hndR, hdCW, hdCR, hdWR⟩ := cards_nodup_parts cfg hnd
  have hH2 : 2 ≤ cfg.numHolders := numHolders_ge_two cfg hplayers
  have hdef : updateFromSuggestion cfg initKB sugr (su, we, ro) none none =
      setHolder cfg (setHolder cfg (setHolder cfg initKB su Holder.envelope) we
        Holder.envelope) ro Holder.envelope := rfl
  have h0p : initKB.poss = famPoss cfg [] := (famPoss_nil cfg).symm
  have h0a : initKB.atleastOne = [] := rfl
  obtain ⟨A1, h1p, h1mem, h1sub, h1chr, h1a⟩ :=
    setHolder_envelope_fam cfg hplayers hisu h0p h0a
  obtain ⟨A2, h2p, h2mem, h2sub, h2chr, h2a⟩ :=
    setHolder_envelope_fam cfg hplayers hiwe h1p h1a
  obtain ⟨A3, h3p, h3mem, h3sub, h3chr, h3a⟩ :=
    setHolder_envelope_fam cfg hplayers hiro h2p h2a
  have hsu3 : isu ∈ A3 := h3sub _ (h2sub _ h1mem)
  have hwe3 : iwe ∈ A3 := h3sub _ h2mem
  have hro3 : iro ∈ A3 := h3mem
  have hA3sub : ∀ x ∈ A3, x = isu ∨ x = iwe ∨ x = iro := by
    have hsole : ∀ x : Nat,
        (cfg.characterNames.filterMap (cardToIdx cfg) = [x] ∨
         cfg.weaponNames.filterMap (cardToIdx cfg) = [x] ∨
         cfg.roomNames.filterMap (cardToIdx cfg) = [x]) →
        x = isu ∨ x = iwe ∨ x = iro := by
      intro x hx
      rcases hx with h | h | h
      · exact Or.inl (soleCat_target cfg hsu hisu h)
      · exact Or.inr (Or.inl (soleCat_target cfg hwe hiwe h))
      · exact Or.inr (Or.inr (soleCat_target cfg hro hiro h))
    intro x hx
    rcases h3chr x hx with h | h | h
    · exact Or.inr (Or.inr h)
    · rcases h2chr x h with h' | h' | h'
      · exact Or.inr (Or.inl h')
      · rcases h1chr x h' with h'' | h'' | h''
        · exact Or.inl h''
        · cases h''
        · exact hsole x h''
      · exact hsole x h'
    · exact hsole x h
  refine ⟨?_, ?_, ?_, ?_⟩
  · rw [hdef]
    exact possibleHolders_fam_mem cfg hisu h3p hsu3
  · rw [hdef]
    exact possibleHolders_fam_mem cfg hiwe h3p hwe3
  · rw [hdef]
    exact possibleHolders_fam_mem cfg hiro h3p hro3
  -- solution fields: the last propagation pass ends with `_check_solution`
  -- on the final matrix
  have hsol : (setHolder cfg (setHolder cfg (setHolder cfg initKB su Holder.envelope) we
      Holder.envelope) ro Holder.envelope).solutionKnown = true ∧
      (setHolder cfg (setHolder cfg (setHolder cfg initKB su Holder.envelope) we
        Holder.envelope) ro Holder.envelope).solution = some (su, we, ro) := by
    set s2 := setHolder cfg (setHolder cfg initKB su Holder.envelope) we Holder.envelope
      with hs2
    have hunf : setHolder cfg s2 ro Holder.envelope =
        propagate cfg { s2 with
          poss := assignRow s2.poss iro cfg.playerIds.length
          changed := true } := by
      unfold setHolder
      rw [hiro, holderToIdx_envelope]
    set t0 : KB := { s2 with
      poss := assignRow s2.poss iro cfg.playerIds.length
      changed := true } with ht0
    obtain ⟨w, hw⟩ : ∃ w, propagate cfg t0 = propagateStep cfg w := by
      unfold propagate
      exact propagateAux_is_step cfg _ rfl (kbMeasure_lt_fuelFor cfg t0)
    have hsp : propagateStep cfg w = checkSolution cfg
        (envelopeRule cfg (processAtleastOne cfg { w with changed := false })) := by
      unfold propagateStep
      rw [singlePossibilityRule_eq_self]
    set W := envelopeRule cfg (processAtleastOne cfg { w with changed := false }) with hWdef
    have hs3W : setHolder cfg s2 ro Holder.envelope = checkSolution cfg W := by
      rw [hunf, hw, hsp]
    have hWposs : W.poss = famPoss cfg A3 := by
      have h1 : (checkSolution cfg W).poss = W.poss := checkSolution_poss cfg W
      have h2 : (setHolder cfg s2 ro Holder.envelope).poss = famPoss cfg A3 := h3p
      rw [hs3W] at h2
      rw [← h1, h2]
    have hes : cfg.characterNames.filter (assignedToEnvB cfg W.poss) = [su] := by
      rw [hWposs]
      apply filter_eq_singleton_of hndC hsu
      · rw [assignedToEnvB_fam cfg hH2 hisu]
        exact decide_eq_true hsu3
      · intro y hy hpy
        obtain ⟨x, hx⟩ := cardToIdx_isSome_of_mem cfg (mem_cards_of_char cfg hy)
        rw [assignedToEnvB_fam cfg hH2 hx] at hpy
        have hxA : x ∈ A3 := of_decide_eq_true hpy
        rcases hA3sub x hxA with h | h | h
        · subst h; exact cardToIdx_inj cfg hx hisu
        · subst h
          have : y = we := cardToIdx_inj cfg hx hiwe
          subst this
          exact absurd hwe (fun hc => hdCW y hy hc)
        · subst h
          have : y = ro := cardToIdx_inj cfg hx hiro
          subst this
          exact absurd hro (fun hc => hdCR y hy hc)
    have hew : cfg.weaponNames.filter (assignedToEnvB cfg W.poss) = [we] := by
      rw [hWposs]
      apply filter_eq_singleton_of hndW hwe
      · rw [assignedToEnvB_fam cfg hH2 hiwe]
        exact decide_eq_true hwe3
      · intro y hy hpy
        obtain ⟨x, hx⟩ := cardToIdx_isSome_of_mem cfg (mem_cards_of_weapon cfg hy)
        rw [assignedToEnvB_fam cfg hH2 hx] at hpy
        have hxA : x ∈ A3 := of_decide_eq_true hpy
        rcases hA3sub x hxA with h | h | h
        · subst h
          have : y = su := cardToIdx_inj cfg hx hisu
          subst this
          exact absurd hy (fun hc => hdCW y hsu hc)
        · subst h; exact cardToIdx_inj cfg hx hiwe
        · subst h
          have : y = ro := cardToIdx_inj cfg hx hiro
          subst this
          exact absurd hro (fun hc => hdWR y hy hc)
    have her : cfg.roomNames.filter (assignedToEnvB cfg W.poss) = [ro] := by
      rw [hWposs]
      apply filter_eq_singleton_of hndR hro
      · rw [assignedToEnvB_fam cfg hH2 hiro]
        exact decide_eq_true hro3
      · intro y hy hpy
        obtain ⟨x, hx⟩ := cardToIdx_isSome_of_mem cfg (mem_cards_of_room cfg hy)
        rw [assignedToEnvB_fam cfg hH2 hx] at hpy
        have hxA : x ∈ A3 := of_decide_eq_true hpy
        rcases hA3sub x hxA with h | h | h
        · subst h
          have : y = su := cardToIdx_inj cfg hx hisu
          subst this
          exact absurd hy (fun hc => hdCR y hsu hc)
        · subst h
          have : y = we := cardToIdx_inj cfg hx hiwe
          subst this
          exact absurd hy (fun hc => hdWR y hwe hc)
        · subst h; exact cardToIdx_inj cfg hx hiro
    have hchk : checkSolution cfg W =
        { W with solutionKnown := true, solution := some (su, we, ro) } := by
      rw [checkSolution_def cfg W, hes, hew, her]
      rw [if_pos ⟨rfl, rfl, rfl⟩]
      rfl
    rw [hs3W, hchk]
    exact ⟨rfl, rfl⟩
  refine ⟨?_, ?_⟩
  · rw [hdef]
    exact hsol.1
  · rw [hdef]
    unfold getSolution
    rw [hsol.1, hsol.2]
    simp

/-- Claim C4, witness: on the fresh two-player engine, the no-response
suggestion ("A","C","E") determines the solution. -/
theorem no_response_suggestion_solves_witness :
    getSolution (updateFromSuggestion cfgEx initKB 0 ("A", "C", "E") none none) =
      some ("A", "C", "E") :=
  (no_response_suggestion_solves cfgEx 0 (by decide) (by decide)
    (show "A" ∈ cfgEx.characterNames by decide)
    (show "C" ∈ cfgEx.weaponNames by decide)
    (show "E" ∈ cfgEx.roomNames by decide)
    (show cardToIdx cfgEx "A" = some 0 by decide)
    (show cardToIdx cfgEx "C" = some 2 by decide)
    (show cardToIdx cfgEx "E" = some 4 by decide)).2.2.2.2

/-! ### Disjunction discharge: helper computations -/

theorem rowCount_const_true (cfg : Config) (i : Nat) :
    rowCount cfg (fun _ _ => true) i = cfg.numHolders := by
  unfold rowCount
  rw [List.countP_true, List.length_range]

theorem rowCount_elimEntry_other (cfg : Config) (p : Nat → Nat → Bool) {ia pi i : Nat}
    (h : i ≠ ia) : rowCount cfg (elimEntry p ia pi) i = rowCount cfg p i := by
  unfold rowCount
  apply countP_ext
  intro j _
  unfold elimEntry
  rw [if_neg (fun hh => h hh.1)]

theorem filterMap_cardToIdx_length (cfg : Config) {L : List String}
    (h : ∀ x ∈ L, x ∈ cfg.cards) : (L.filterMap (cardToIdx cfg)).length = L.length := by
  induction L with
  | nil => rfl
  | cons x t ih =>
    obtain ⟨i, hi⟩ := cardToIdx_isSome_of_mem cfg (h x (List.mem_cons_self _ _))
    rw [List.filterMap_cons, hi]
    simp only [List.length_cons]
    rw [ih (fun y hy => h y (List.mem_cons_of_mem _ hy))]

theorem envelopeStep_no_fire_of_len (cfg : Config) {s : KB} {L : List String}
    (hconst : ∀ x, s.poss x (envIdx cfg) = true)
    (hlen : (L.filterMap (cardToIdx cfg)).length ≠ 1) : envelopeStep cfg s L = s := by
  simp only [envelopeStep]
  rw [List.filter_eq_self.mpr (fun x _ => hconst x)]
  rw [if_neg hlen]

theorem checkSolution_no_op (cfg : Config) {s : KB}
    (h : ¬ ((cfg.characterNames.filter (assignedToEnvB cfg s.poss)).length = 1 ∧
        (cfg.weaponNames.filter (assignedToEnvB cfg s.poss)).length = 1 ∧
        (cfg.roomNames.filter (assignedToEnvB cfg s.poss)).length = 1)) :
    checkSolution cfg s = s := by
  rw [checkSolution_def, if_neg h]

theorem isAssignedTo_false_of_rowCount (cfg : Config) {poss : Nat → Nat → Bool}
    {i hi : Nat} (h : rowCount cfg poss i ≠ 1) : isAssignedTo cfg poss i hi = false := by
  unfold isAssignedTo isAssigned
  simp [h]

theorem isAssignedTo_false_of_entry (cfg : Config) {poss : Nat → Nat → Bool}
    {i hi : Nat} (h : poss i hi = false) : isAssignedTo cfg poss i hi = false := by
  unfold isAssignedTo
  rw [h]
  simp

theorem filter_assignedToEnv_nil (cfg : Config) {m : Nat → Nat → Bool} {L : List String}
    {astr : String} {ia : Nat} (hia : cardToIdx cfg astr = some ia)
    (hrow : ∀ i, i ≠ ia → rowCount cfg m i = cfg.numHolders)
    (hH : cfg.numHolders ≠ 1)
    (hsub : ∀ x ∈ L, x ∈ cfg.cards) (hnotin : astr ∉ L) :
    L.filter (assignedToEnvB cfg m) = [] := by
  apply List.filter_eq_nil.mpr
  intro y hy
  obtain ⟨iy, hiy⟩ := cardToIdx_isSome_of_mem cfg (hsub y hy)
  have hne : iy ≠ ia := by
    intro h
    have h2 : cardToIdx cfg astr = some iy := by rw [hia, h]
    have h3 : y = astr := cardToIdx_inj cfg hiy h2
    subst h3
    exact hnotin hy
  simp only [assignedToEnvB, hiy]
  rw [isAssignedTo_false_of_rowCount cfg (by rw [hrow iy hne]; exact hH)]
  simp

theorem keepPred_true_of (cfg : Config) {poss : Nat → Nat → Bool} {h : Holder}
    {hi : Nat} {S : List Nat} (hh : holderToIdx cfg h = some hi)
    (hlen : 2 ≤ (S.filter (fun x => poss x hi)).length)
    (hass : ∀ x ∈ S, isAssignedTo cfg poss x hi = false) :
    keepPred cfg poss (h, S) = true := by
  unfold keepPred
  rw [hh]
  simp only
  have hany : S.any (fun ci => isAssignedTo cfg poss ci hi) = false := by
    apply List.any_eq_false.mpr
    intro x hx
    simp [hass x hx]
  rw [hany]
  simp [hlen]

theorem possibleHolders_indicator (cfg : Config) {s : KB} {c : String} {ci hi : Nat}
    {h0 : Holder} (hc : cardToIdx cfg c = some ci)
    (hrow : ∀ j, s.poss ci j = decide (j = hi)) (hlt : hi < cfg.numHolders)
    (hget : cfg.holders.get? hi = some h0) : possibleHolders cfg s c = [h0] := by
  unfold possibleHolders
  rw [hc]
  simp only
  rw [filter_ext (fun i _ => hrow i), filter_range_decide_eq, if_pos hlt,
    List.filterMap_cons, hget]
  rfl

theorem propagateStep_atleastOne_nil (cfg : Config) {s : KB} (h : s.atleastOne = []) :
    (propagateStep cfg s).atleastOne = [] := by
  unfold propagateStep
  rw [singlePossibilityRule_eq_self, checkSolution_atleastOne, envelopeRule_atleastOne,
    processAtleastOne_empty cfg (show ({ s with changed := false } : KB).atleastOne = []
      from h)]
  exact h

theorem propagateAux_atleastOne_nil (cfg : Config) :
    ∀ (fuel : Nat) {s : KB}, s.atleastOne = [] →
      (propagateAux cfg fuel s).atleastOne = [] := by
  intro fuel
  induction fuel with
  | zero => intro s h; exact h
  | succ m ih =>
    intro s h
    cases hc : s.changed with
    | false => rw [propagateAux_of_changed_false cfg hc]; exact h
    | true =>
      unfold propagateAux
      simp only [hc, if_true]
      exact ih (propagateStep_atleastOne_nil cfg h)

theorem propagate_one_pass (cfg : Config) {t σ : KB} (ht : t.changed = true)
    (hstep : propagateStep cfg t = σ) (hσ : σ.changed = false) :
    propagate cfg t = σ := by
  unfold propagate fuelFor propagateAux
  simp only [ht, if_true]
  rw [hstep]
  exact propagateAux_of_changed_false cfg hσ _

theorem propagate_step_first (cfg : Config) (t : KB) (ht : t.changed = true) :
    propagate cfg t =
      propagateAux cfg (t.atleastOne.length + cfg.numCards) (propagateStep cfg t) := by
  have h : propagate cfg t =
      if t.changed then
        propagateAux cfg (t.atleastOne.length + cfg.numCards) (propagateStep cfg t)
      else t := rfl
  rw [h, if_pos ht]


/-- Claim C3 (amended): on a fresh engine each of whose categories holds at
least two cards, for distinct valid cards a, b, c and a valid player P,
`record_atleast_one(P, {a,b,c})` followed by `eliminate(a, P)` and
`eliminate(b, P)` automatically assigns c to P — `possible_holders(c) = {P}` —
and the constraint has been removed from the store.  (With a single-card
category the claim as stated fails: envelope exclusivity can pre-assign c to
the envelope and the run instead forces b to P and then contradicts itself —
see the counterexample.) -/
theorem disjunction_discharge (cfg : Config) {a b c : String} {P : Nat}
    {ia ib ic : Nat}
    (hnd : cfg.cards.Nodup) (hP : P ∈ cfg.playerIds)
    (hia : cardToIdx cfg a = some ia) (hib : cardToIdx cfg b = some ib)
    (hic : cardToIdx cfg c = some ic)
    (hab : a ≠ b) (hac : a ≠ c) (hbc : b ≠ c)
    (hC : 2 ≤ cfg.characterNames.length) (hW : 2 ≤ cfg.weaponNames.length)
    (hR : 2 ≤ cfg.roomNames.length) :
    possibleHolders cfg
      (eliminate cfg (eliminate cfg
        (recordAtleastOne cfg initKB (Holder.player P) [a, b, c])
        a (Holder.player P)) b (Holder.player P)) c = [Holder.player P] ∧
    (eliminate cfg (eliminate cfg
      (recordAtleastOne cfg initKB (Holder.player P) [a, b, c])
      a (Holder.player P)) b (Holder.player P)).atleastOne = [] := by
  obtain ⟨hndC, hndW, hndR, hdCW, hdCR, hdWR⟩ := cards_nodup_parts cfg hnd
  obtain ⟨pi, hpi, hpilt, hpiget⟩ := holderToIdx_player_cases cfg hP
  have hplayers : cfg.playerIds ≠ [] := List.ne_nil_of_mem hP
  have hH2 : 2 ≤ cfg.numHolders := numHolders_ge_two cfg hplayers
  have hH1 : cfg.numHolders ≠ 1 := by omega
  have hpiH : pi < cfg.numHolders := by rw [numHolders_eq]; omega
  have hpienv : pi ≠ envIdx cfg := by rw [envIdx_eq]; omega
  have hiaib : ia ≠ ib := by
    intro h
    exact hab (cardToIdx_inj cfg hia (by rw [hib]; exact congrArg some h.symm))
  have hiaic : ia ≠ ic := by
    intro h
    exact hac (cardToIdx_inj cfg hia (by rw [hic]; exact congrArg some h.symm))
  have hibic : ib ≠ ic := by
    intro h
    exact hbc (cardToIdx_inj cfg hib (by rw [hic]; exact congrArg some h.symm))
  have hamem : a ∈ cfg.cards := List.get?_mem (cardToIdx_get cfg hia)
  have hsubC : ∀ x ∈ cfg.characterNames, x ∈ cfg.cards :=
    fun x hx => mem_cards_of_char cfg hx
  have hsubW : ∀ x ∈ cfg.weaponNames, x ∈ cfg.cards :=
    fun x hx => mem_cards_of_weapon cfg hx
  have hsubR : ∀ x ∈ cfg.roomNames, x ∈ cfg.cards :=
    fun x hx => mem_cards_of_room cfg hx
  have hlenC : (cfg.characterNames.filterMap (cardToIdx cfg)).length ≠ 1 := by
    rw [filterMap_cardToIdx_length cfg hsubC]; omega
  have hlenW : (cfg.weaponNames.filterMap (cardToIdx cfg)).length ≠ 1 := by
    rw [filterMap_cardToIdx_length cfg hsubW]; omega
  have hlenR : (cfg.roomNames.filterMap (cardToIdx cfg)).length ≠ 1 := by
    rw [filterMap_cardToIdx_length cfg hsubR]; omega
  -- stage 1: recording the constraint changes nothing else
  have hrec : recordAtleastOne cfg initKB (Holder.player P) [a, b, c] =
      propagate cfg (mkKB (fun _ _ => true) [(Holder.player P, [ia, ib, ic])] true) := by
    unfold recordAtleastOne
    simp only [List.filterMap_cons, hia, hib, hic, List.filterMap_nil]
    rw [List.dedup_eq_self.mpr (by simp [hiaib, hiaic, hibic])]
    rw [if_neg (by simp)]
    rfl
  have hstep1 : propagateStep cfg
      (mkKB (fun _ _ => true) [(Holder.player P, [ia, ib, ic])] true) =
      mkKB (fun _ _ => true) [(Holder.player P, [ia, ib, ic])] false := by
    unfold propagateStep
    rw [singlePossibilityRule_eq_self]
    show checkSolution cfg (envelopeRule cfg (processAtleastOne cfg
      (mkKB (fun _ _ => true) [(Holder.player P, [ia, ib, ic])] false))) =
      mkKB (fun _ _ => true) [(Holder.player P, [ia, ib, ic])] false
    have hposs : (mkKB (fun _ _ => true)
        [(Holder.player P, [ia, ib, ic])] false).poss = fun _ _ => true := rfl
    have hcons : processAtleastOne cfg
        (mkKB (fun _ _ => true) [(Holder.player P, [ia, ib, ic])] false) =
        mkKB (fun _ _ => true) [(Holder.player P, [ia, ib, ic])] false := by
      apply processAtleastOne_stable
      intro con hcon
      have hconE : con = (Holder.player P, [ia, ib, ic]) := by
        have hal : (mkKB (fun _ _ => true) [(Holder.player P, [ia, ib, ic])]
            false).atleastOne = [(Holder.player P, [ia, ib, ic])] := rfl
        rw [hal] at hcon
        simpa using hcon
      subst hconE
      apply keepPred_true_of cfg hpi
      · have hfe : [ia, ib, ic].filter (fun x =>
            (mkKB (fun _ _ => true) [(Holder.player P, [ia, ib, ic])] false).poss x pi) =
            [ia, ib, ic] := List.filter_eq_self.mpr (fun x _ => rfl)
        rw [hfe]
        simp
      · intro x _
        apply isAssignedTo_false_of_rowCount
        rw [hposs, rowCount_const_true]
        exact hH1
    have henv : envelopeRule cfg
        (mkKB (fun _ _ => true) [(Holder.player P, [ia, ib, ic])] false) =
        mkKB (fun _ _ => true) [(Holder.player P, [ia, ib, ic])] false := by
      unfold envelopeRule
      rw [envelopeStep_no_fire_of_len cfg (fun x => by rw [hposs]) hlenC,
        envelopeStep_no_fire_of_len cfg (fun x => by rw [hposs]) hlenW,
        envelopeStep_no_fire_of_len cfg (fun x => by rw [hposs]) hlenR]
    have hchk : checkSolution cfg
        (mkKB (fun _ _ => true) [(Holder.player P, [ia, ib, ic])] false) =
        mkKB (fun _ _ => true) [(Holder.player P, [ia, ib, ic])] false := by
      apply checkSolution_no_op
      rintro ⟨h1, _, _⟩
      have hnil : cfg.characterNames.filter (assignedToEnvB cfg
          (mkKB (fun _ _ => true) [(Holder.player P, [ia, ib, ic])] false).poss) = [] := by
        apply List.filter_eq_nil.mpr
        intro y hy
        obtain ⟨iy, hiy⟩ := cardToIdx_isSome_of_mem cfg (hsubC y hy)
        simp only [assignedToEnvB, hiy]
        have hrc : rowCount cfg (mkKB (fun _ _ => true)
            [(Holder.player P, [ia, ib, ic])] false).poss iy ≠ 1 := by
          rw [hposs, rowCount_const_true]
          exact hH1
        rw [isAssignedTo_false_of_rowCount cfg hrc]
        simp
      rw [hnil] at h1
      simp at h1
    rw [hcons, henv, hchk]
  have hσ1eq : recordAtleastOne cfg initKB (Holder.player P) [a, b, c] =
      mkKB (fun _ _ => true) [(Holder.player P, [ia, ib, ic])] false := by
    rw [hrec]
    exact propagate_one_pass cfg rfl hstep1 rfl
  -- stage 2: eliminate a for P; the constraint still has two live cards
  have hq1a : elimEntry (fun _ _ => true) ia pi ia pi = false := by
    unfold elimEntry
    simp
  have hq1b : elimEntry (fun _ _ => true) ia pi ib pi = true := by
    unfold elimEntry
    rw [if_neg (fun hh => hiaib hh.1.symm)]
  have hq1c : elimEntry (fun _ _ => true) ia pi ic pi = true := by
    unfold elimEntry
    rw [if_neg (fun hh => hiaic hh.1.symm)]
  have hq1env : ∀ x, elimEntry (fun _ _ => true) ia pi x (envIdx cfg) = true := by
    intro x
    unfold elimEntry
    rw [if_neg (fun hh => hpienv hh.2.symm)]
  have hq1row : ∀ i, i ≠ ia →
      rowCount cfg (elimEntry (fun _ _ => true) ia pi) i = cfg.numHolders := by
    intro i hi
    rw [rowCount_elimEntry_other cfg _ hi, rowCount_const_true]
  have helim1 : eliminate cfg
      (mkKB (fun _ _ => true) [(Holder.player P, [ia, ib, ic])] false) a
      (Holder.player P) =
      propagate cfg (mkKB (elimEntry (fun _ _ => true) ia pi)
        [(Holder.player P, [ia, ib, ic])] true) := by
    unfold eliminate
    rw [hia, hpi]
    simp only
    rw [if_neg (by simp [mkKB])]
    rfl
  have hposs2 : (mkKB (elimEntry (fun _ _ => true) ia pi)
      [(Holder.player P, [ia, ib, ic])] false).poss =
      elimEntry (fun _ _ => true) ia pi := rfl
  have hstep2 : propagateStep cfg (mkKB (elimEntry (fun _ _ => true) ia pi)
      [(Holder.player P, [ia, ib, ic])] true) =
      mkKB (elimEntry (fun _ _ => true) ia pi) [(Holder.player P, [ia, ib, ic])] false := by
    unfold propagateStep
    rw [singlePossibilityRule_eq_self]
    show checkSolution cfg (envelopeRule cfg (processAtleastOne cfg
      (mkKB (elimEntry (fun _ _ => true) ia pi)
        [(Holder.player P, [ia, ib, ic])] false))) =
      mkKB (elimEntry (fun _ _ => true) ia pi) [(Holder.player P, [ia, ib, ic])] false
    have hcons : processAtleastOne cfg (mkKB (elimEntry (fun _ _ => true) ia pi)
        [(Holder.player P, [ia, ib, ic])] false) =
        mkKB (elimEntry (fun _ _ => true) ia pi)
          [(Holder.player P, [ia, ib, ic])] false := by
      apply processAtleastOne_stable
      intro con hcon
      have hconE : con = (Holder.player P, [ia, ib, ic]) := by
        have hal : (mkKB (elimEntry (fun _ _ => true) ia pi)
            [(Holder.player P, [ia, ib, ic])] false).atleastOne =
            [(Holder.player P, [ia, ib, ic])] := rfl
        rw [hal] at hcon
        simpa using hcon
      subst hconE
      apply keepPred_true_of cfg hpi
      · have hfe : [ia, ib, ic].filter (fun x =>
            (mkKB (elimEntry (fun _ _ => true) ia pi)
              [(Holder.player P, [ia, ib, ic])] false).poss x pi) = [ib, ic] := by
          rw [hposs2]
          simp [List.filter_cons, hq1a, hq1b, hq1c]
        rw [hfe]
        simp
      · intro x hx
        simp only [List.mem_cons, List.not_mem_nil, or_false] at hx
        rcases hx with h | h | h
        · subst h
          apply isAssignedTo_false_of_entry
          rw [hposs2]
          exact hq1a
        · rw [h]
          apply isAssignedTo_false_of_rowCount
          rw [hposs2, hq1row ib (fun hh => hiaib hh.symm)]
          exact hH1
        · rw [h]
          apply isAssignedTo_false_of_rowCount
          rw [hposs2, hq1row ic (fun hh => hiaic hh.symm)]
          exact hH1
    have henv : envelopeRule cfg (mkKB (elimEntry (fun _ _ => true) ia pi)
        [(Holder.player P, [ia, ib, ic])] false) =
        mkKB (elimEntry (fun _ _ => true) ia pi)
          [(Holder.player P, [ia, ib, ic])] false := by
      unfold envelopeRule
      rw [envelopeStep_no_fire_of_len cfg (fun x => hq1env x) hlenC,
        envelopeStep_no_fire_of_len cfg (fun x => hq1env x) hlenW,
        envelopeStep_no_fire_of_len cfg (fun x => hq1env x) hlenR]
    have hchk : checkSolution cfg (mkKB (elimEntry (fun _ _ => true) ia pi)
        [(Holder.player P, [ia, ib, ic])] false) =
        mkKB (elimEntry (fun _ _ => true) ia pi)
          [(Holder.player P, [ia, ib, ic])] false := by
      apply checkSolution_no_op
      rintro ⟨h1, h2, _⟩
      rcases List.mem_append.mp hamem with hcw | hroom
      · rcases List.mem_append.mp hcw with hchar | hweap
        · have hnil : cfg.weaponNames.filter (assignedToEnvB cfg
              (mkKB (elimEntry (fun _ _ => true) ia pi)
                [(Holder.player P, [ia, ib, ic])] false).poss) = [] := by
            rw [hposs2]
            exact filter_assignedToEnv_nil cfg hia hq1row hH1 hsubW
              (fun hmem => hdCW a hchar hmem)
          rw [hnil] at h2
          simp at h2
        · have hnil : cfg.characterNames.filter (assignedToEnvB cfg
              (mkKB (elimEntry (fun _ _ => true) ia pi)
                [(Holder.player P, [ia, ib, ic])] false).poss) = [] := by
            rw [hposs2]
            exact filter_assignedToEnv_nil cfg hia hq1row hH1 hsubC
              (fun hmem => hdCW a hmem hweap)
          rw [hnil] at h1
          simp at h1
      · have hnil : cfg.characterNames.filter (assignedToEnvB cfg
            (mkKB (elimEntry (fun _ _ => true) ia pi)
              [(Holder.player P, [ia, ib, ic])] false).poss) = [] := by
          rw [hposs2]
          exact filter_assignedToEnv_nil cfg hia hq1row hH1 hsubC
            (fun hmem => hdCR a hmem hroom)
        rw [hnil] at h1
        simp at h1
    rw [hcons, henv, hchk]
  have hσ2eq : eliminate cfg
      (mkKB (fun _ _ => true) [(Holder.player P, [ia, ib, ic])] false) a
      (Holder.player P) =
      mkKB (elimEntry (fun _ _ => true) ia pi)
        [(Holder.player P, [ia, ib, ic])] false := by
    rw [helim1]
    exact propagate_one_pass cfg rfl hstep2 rfl
  -- stage 3: eliminate b for P; the constraint forces c to P and is discharged
  have hq2a : elimEntry (elimEntry (fun _ _ => true) ia pi) ib pi ia pi = false := by
    show (if ia = ib ∧ pi = pi then false
      else elimEntry (fun _ _ => true) ia pi ia pi) = false
    rw [if_neg (fun hh => hiaib hh.1), hq1a]
  have hq2b : elimEntry (elimEntry (fun _ _ => true) ia pi) ib pi ib pi = false := by
    show (if ib = ib ∧ pi = pi then false
      else elimEntry (fun _ _ => true) ia pi ib pi) = false
    rw [if_pos ⟨rfl, rfl⟩]
  have hq2c : elimEntry (elimEntry (fun _ _ => true) ia pi) ib pi ic pi = true := by
    show (if ic = ib ∧ pi = pi then false
      else elimEntry (fun _ _ => true) ia pi ic pi) = true
    rw [if_neg (fun hh => hibic hh.1.symm), hq1c]
  have helim2 : eliminate cfg
      (mkKB (elimEntry (fun _ _ => true) ia pi)
        [(Holder.player P, [ia, ib, ic])] false) b (Holder.player P) =
      propagate cfg (mkKB (elimEntry (elimEntry (fun _ _ => true) ia pi) ib pi)
        [(Holder.player P, [ia, ib, ic])] true) := by
    unfold eliminate
    rw [hib, hpi]
    simp only
    rw [if_neg (by rw [hposs2, hq1b]; simp)]
    rfl
  have hposs3 : (mkKB (elimEntry (elimEntry (fun _ _ => true) ia pi) ib pi)
      [(Holder.player P, [ia, ib, ic])] false).poss =
      elimEntry (elimEntry (fun _ _ => true) ia pi) ib pi := rfl
  have hfe2 : [ia, ib, ic].filter (fun x =>
      (mkKB (elimEntry (elimEntry (fun _ _ => true) ia pi) ib pi)
        [(Holder.player P, [ia, ib, ic])] false).poss x pi) = [ic] := by
    rw [hposs3]
    simp [List.filter_cons, hq2a, hq2b, hq2c]
  have hcons3 : processAtleastOne cfg
      (mkKB (elimEntry (elimEntry (fun _ _ => true) ia pi) ib pi)
        [(Holder.player P, [ia, ib, ic])] false) =
      mkKB (assignRow (elimEntry (elimEntry (fun _ _ => true) ia pi) ib pi) ic pi)
        [] true := by
    have hal3 : (mkKB (elimEntry (elimEntry (fun _ _ => true) ia pi) ib pi)
        [(Holder.player P, [ia, ib, ic])] false).atleastOne =
        [(Holder.player P, [ia, ib, ic])] := rfl
    simp only [processAtleastOne]
    rw [hal3, List.foldl_cons, List.foldl_nil]
    simp only [constraintStep, hpi]
    rw [hfe2]
    rw [if_neg (by simp), if_pos (show ([ic]).length = 1 from rfl)]
    rfl
  have hrow3 : ∀ j, (mkKB
      (assignRow (elimEntry (elimEntry (fun _ _ => true) ia pi) ib pi) ic pi)
      [] true).poss ic j = decide (j = pi) := by
    intro j
    show assignRow (elimEntry (elimEntry (fun _ _ => true) ia pi) ib pi) ic pi ic j =
      decide (j = pi)
    unfold assignRow
    rw [if_pos rfl]
  have hstep3row : ∀ j, (propagateStep cfg
      (mkKB (elimEntry (elimEntry (fun _ _ => true) ia pi) ib pi)
        [(Holder.player P, [ia, ib, ic])] true)).poss ic j = decide (j = pi) := by
    intro j
    show (checkSolution cfg (envelopeRule cfg (processAtleastOne cfg
      (singlePossibilityRule cfg
        (mkKB (elimEntry (elimEntry (fun _ _ => true) ia pi) ib pi)
          [(Holder.player P, [ia, ib, ic])] false))))).poss ic j = decide (j = pi)
    rw [singlePossibilityRule_eq_self, hcons3, checkSolution_poss]
    exact envelopeRule_row_preserved cfg hrow3 hpiH j
  have hstep3al : (propagateStep cfg
      (mkKB (elimEntry (elimEntry (fun _ _ => true) ia pi) ib pi)
        [(Holder.player P, [ia, ib, ic])] true)).atleastOne = [] := by
    show (checkSolution cfg (envelopeRule cfg (processAtleastOne cfg
      (singlePossibilityRule cfg
        (mkKB (elimEntry (elimEntry (fun _ _ => true) ia pi) ib pi)
          [(Holder.player P, [ia, ib, ic])] false))))).atleastOne = []
    rw [singlePossibilityRule_eq_self, hcons3, checkSolution_atleastOne,
      envelopeRule_atleastOne]
    rfl
  have hfinalrow : ∀ j, (propagate cfg
      (mkKB (elimEntry (elimEntry (fun _ _ => true) ia pi) ib pi)
        [(Holder.player P, [ia, ib, ic])] true)).poss ic j = decide (j = pi) := by
    intro j
    rw [propagate_step_first cfg _ rfl]
    exact propagateAux_row_preserved cfg hpiH _ _ hstep3row j
  have hfinalal : (propagate cfg
      (mkKB (elimEntry (elimEntry (fun _ _ => true) ia pi) ib pi)
        [(Holder.player P, [ia, ib, ic])] true)).atleastOne = [] := by
    rw [propagate_step_first cfg _ rfl]
    exact propagateAux_atleastOne_nil cfg _ hstep3al
  rw [hσ1eq, hσ2eq, helim2]
  exact ⟨possibleHolders_indicator cfg hic hfinalrow hpiH hpiget, hfinalal⟩

/-- Counterexample to claim C3 as literally stated: on an engine whose weapon
category holds the single card "C", recording the constraint (player 0,
{A, B, C}) lets envelope exclusivity assign "C" to the envelope at once, so
after `eliminate("A", player 0)` and `eliminate("B", player 0)` the card "C"
is envelope-only rather than assigned to player 0. -/
theorem disjunction_discharge_cex :
    possibleHolders cfgSing
      (eliminate cfgSing (eliminate cfgSing
        (recordAtleastOne cfgSing initKB (Holder.player 0) ["A", "B", "C"])
        "A" (Holder.player 0)) "B" (Holder.player 0)) "C" = [Holder.envelope] ∧
    Holder.player 0 ∉ possibleHolders cfgSing
      (eliminate cfgSing (eliminate cfgSing
        (recordAtleastOne cfgSing initKB (Holder.player 0) ["A", "B", "C"])
        "A" (Holder.player 0)) "B" (Holder.player 0)) "C" := by
  decide

/-- Witness instantiating claim C3's amended theorem on the concrete
two-cards-per-category instance. -/
theorem disjunction_discharge_witness :
    possibleHolders cfgEx
      (eliminate cfgEx (eliminate cfgEx
        (recordAtleastOne cfgEx initKB (Holder.player 0) ["A", "C", "E"])
        "A" (Holder.player 0)) "C" (Holder.player 0)) "E" = [Holder.player 0] ∧
    (eliminate cfgEx (eliminate cfgEx
      (recordAtleastOne cfgEx initKB (Holder.player 0) ["A", "C", "E"])
      "A" (Holder.player 0)) "C" (Holder.player 0)).atleastOne = [] :=
  disjunction_discharge cfgEx (by decide)
    (show (0 : Nat) ∈ cfgEx.playerIds by decide)
    (show cardToIdx cfgEx "A" = some 0 by decide)
    (show cardToIdx cfgEx "C" = some 2 by decide)
    (show cardToIdx cfgEx "E" = some 4 by decide)
    (by decide) (by decide) (by decide)
    (by decide) (by decide) (by decide)
